import Mathlib

/-!
# ofxNodeGraph: a scene-graph node hierarchy

Shallow embedding of `src/ofxNodeGraph.h`.

* Nodes live in a heap indexed by addresses (natural numbers); `parent`, `root_node`
  and the entries of `children` are addresses, as the C++ pointers are.
* `ofMatrix4x4`, `ofVec3f` and `ofQuaternion` belong to openFrameworks, not to
  this repository.  Matrices are 4x4 matrices over `ℚ` (exact arithmetic), with
  the row-vector convention of openFrameworks (`_mat[row][col]`, a point is a
  row `[x y z 1]` multiplied from the left).
* Recursive member functions take a fuel argument and return `none` when the
  fuel runs out; the public operations pass `next` (the number of allocated
  nodes) as fuel, which is shown to suffice on every reachable heap.
-/

namespace ofxNodeGraph

/-! ## openFrameworks value types -/

/-- The 4x4 matrix type `ofMatrix4x4`, in exact rational arithmetic. -/
abbrev Mat := Matrix (Fin 4) (Fin 4) ℚ

/-- The vector type `ofVec3f`. -/
structure Vec3 where
  x : ℚ
  y : ℚ
  z : ℚ
deriving DecidableEq

/-- The quaternion type `ofQuaternion`, components `_v[0.._v[3]` = x, y, z, w. -/
structure Quat where
  x : ℚ
  y : ℚ
  z : ℚ
  w : ℚ
deriving DecidableEq

/-- Modelled from the spec: `ofVec3f()` is the zero vector. -/
def Vec3.zero : Vec3 := ⟨0, 0, 0⟩

/-- Modelled from the spec: `ofVec3f(1)`, the unit scale, all components 1. -/
def Vec3.one : Vec3 := ⟨1, 1, 1⟩

/-- Modelled from the spec: `ofQuaternion()` is the identity rotation (0,0,0,1). -/
def Quat.identity : Quat := ⟨0, 0, 0, 1⟩

/-- Modelled from the spec: `ofVec3f::operator*(const ofVec3f&)`, the componentwise product. -/
def Vec3.mul (a b : Vec3) : Vec3 := ⟨a.x * b.x, a.y * b.y, a.z * b.z⟩

/-- Modelled from the spec: `ofMatrix4x4::getInverse`, the inverse of the matrix in exact
arithmetic (inverse of the determinant times the adjugate). -/
def getInverse (m : Mat) : Mat := (Matrix.det m)⁻¹ • Matrix.adjugate m

/-- Modelled from the spec: `ofMatrix4x4::makeScaleMatrix`, the diagonal matrix of the scale. -/
def makeScaleMatrix (s : Vec3) : Mat :=
  !![s.x, 0, 0, 0;
     0, s.y, 0, 0;
     0, 0, s.z, 0;
     0, 0, 0, 1]

/-- Modelled from the spec: `ofQuaternion::zeroRotation`. -/
def Quat.zeroRotation (q : Quat) : Bool :=
  decide (q.x = 0 ∧ q.y = 0 ∧ q.z = 0 ∧ q.w = 1)

/-- Modelled from the spec: `ofMatrix4x4::setRotate(q)` on an identity matrix, the rotation
matrix of a quaternion (normalised by its squared length; the zero quaternion gives a zero
3x3 block). -/
def rotationMatrix (q : Quat) : Mat :=
  let length2 := q.x * q.x + q.y * q.y + q.z * q.z + q.w * q.w
  if length2 = 0 then
    !![0, 0, 0, 0;
       0, 0, 0, 0;
       0, 0, 0, 0;
       0, 0, 0, 1]
  else
    let rlength2 := 2 / length2
    let x2 := rlength2 * q.x
    let y2 := rlength2 * q.y
    let z2 := rlength2 * q.z
    let xx := q.x * x2
    let xy := q.x * y2
    let xz := q.x * z2
    let yy := q.y * y2
    let yz := q.y * z2
    let zz := q.z * z2
    let wx := q.w * x2
    let wy := q.w * y2
    let wz := q.w * z2
    !![1 - (yy + zz), xy + wz, xz - wy, 0;
       xy - wz, 1 - (xx + zz), yz + wx, 0;
       xz + wy, yz - wx, 1 - (xx + yy), 0;
       0, 0, 0, 1]

/-- Modelled from the spec: `ofMatrix4x4::rotate(const ofQuaternion&)`, which multiplies the
rotation matrix of `q` onto the matrix from the right (so that the local matrix is
`Scale * Rotation`), and does nothing for the zero rotation. -/
def rotateQ (m : Mat) (q : Quat) : Mat :=
  if q.zeroRotation then m else m * rotationMatrix q

/-- Modelled from the spec: `ofMatrix4x4::setTranslation`, which overwrites the first three
entries of the last row. -/
def setTranslation (m : Mat) (v : Vec3) : Mat :=
  fun i j =>
    if i = 3 then
      (if j = 0 then v.x else if j = 1 then v.y else if j = 2 then v.z else m i j)
    else m i j

/-- Modelled from the spec: `ofMatrix4x4::getTranslation`, the first three entries of the
last row. -/
def getTranslation (m : Mat) : Vec3 := ⟨m 3 0, m 3 1, m 3 2⟩

/-- The row vector `[x y z 1]` of a point. -/
def Vec3.row (v : Vec3) : Fin 4 → ℚ := ![v.x, v.y, v.z, 1]

/-- Modelled from the spec: `ofMatrix4x4::preMult(const ofVec3f&)`, the row vector
`[x y z 1]` times the matrix, divided by the fourth component of the product. -/
def preMult (m : Mat) (v : Vec3) : Vec3 :=
  let d := 1 / (m 0 3 * v.x + m 1 3 * v.y + m 2 3 * v.z + m 3 3)
  ⟨(m 0 0 * v.x + m 1 0 * v.y + m 2 0 * v.z + m 3 0) * d,
   (m 0 1 * v.x + m 1 1 * v.y + m 2 1 * v.z + m 3 1) * d,
   (m 0 2 * v.x + m 1 2 * v.y + m 2 2 * v.z + m 3 2) * d⟩

/-- The translation matrix of a vector: the identity with last row `[x y z 1]`. -/
def translationMatrix (v : Vec3) : Mat :=
  !![1, 0, 0, 0;
     0, 1, 0, 0;
     0, 0, 1, 0;
     v.x, v.y, v.z, 1]

/-- Modelled from the spec: `ofMatrix4x4::glTranslate`, which multiplies a translation onto
the matrix from the left (`preMultTranslate`). -/
def glTranslate (m : Mat) (v : Vec3) : Mat := translationMatrix v * m

/-- Modelled from the spec: the openFrameworks operations that need square roots or
trigonometry, or whose formula no property below depends on; they are parameters of the
development.  `getRotate` and `getScale` decompose a matrix, `quatMul` is
`ofQuaternion::operator*`, and `axisAngleMatrix angle axis` is the rotation matrix that
`ofMatrix4x4::glRotate(angle, x, y, z)` multiplies onto the matrix from the left. -/
structure OfLib where
  getRotate : Mat → Quat
  getScale : Mat → Vec3
  quatMul : Quat → Quat → Quat
  axisAngleMatrix : ℚ → Vec3 → Mat

/-! ## Nodes and the heap -/

/-! Addresses of nodes (`Node*`, `shared_ptr<Node>`) are natural numbers. -/

/-- The class `Node`: the data members of the C++ class, plus `kind`, the tag of the
concrete class the object was created as (the `T` of `addChild<T>`). -/
structure Node where
  kind : Nat
  name : String
  position : Vec3
  rotation : Quat
  scale : Vec3
  children : List Nat
  parent : Option Nat
  root_node : Option Nat
  matrix : Mat
  global_matrix : Mat
  parent_global_matrix_inv : Mat

/-- The constructor `Node::Node()`: `parent(NULL), root_node(NULL), scale(1)`, all other
members default-constructed (identity matrices, zero position, identity rotation). -/
def Node.new (kind : Nat) : Node where
  kind := kind
  name := ""
  position := Vec3.zero
  rotation := Quat.identity
  scale := Vec3.one
  children := []
  parent := none
  root_node := none
  matrix := 1
  global_matrix := 1
  parent_global_matrix_inv := 1

/-- The heap: the object at each address, and the next free address. -/
structure Heap where
  nodes : Nat → Node
  next : Nat

/-- Write through a pointer: replace the object at `id` by `f` of it. -/
def Heap.modify (h : Heap) (id : Nat) (f : Node → Node) : Heap :=
  { h with nodes := Function.update h.nodes id (f (h.nodes id)) }

/-- The kind tag of `RootNode`. -/
def rootKind : Nat := 0

/-- The address of the root node of the tree. -/
def rootId : Nat := 0

/-- The constructor `RootNode::RootNode()`, run on an empty heap: `Node()`, then
`root_node = this; name = "root"`. -/
def RootNode.new : Heap where
  nodes := Function.update (fun _ => Node.new rootKind) rootId
    { Node.new rootKind with root_node := some rootId, name := "root" }
  next := 1

/-- The user-overridable hook `virtual void update()` of the concrete classes: given the
heap and `this`, the heap it leaves.  (Dispatch on the concrete class is by the `kind` of the
node at `this`.) -/
abbrev Hook := Heap → Nat → Heap

/-! ## Member functions of `Node` -/

/-- `Node::getName`. -/
def getName (h : Heap) (self : Nat) : String := (h.nodes self).name

/-- `Node::getParent`. -/
def getParent (h : Heap) (self : Nat) : Option Nat := (h.nodes self).parent

/-- `Node::getRootNode`. -/
def getRootNode (h : Heap) (self : Nat) : Option Nat := (h.nodes self).root_node

/-- `Node::updateLocalMatrix`: `makeScaleMatrix(scale); rotate(rotation);
setTranslation(position)`. -/
def updateLocalMatrix (n : Node) : Node :=
  { n with matrix := setTranslation (rotateQ (makeScaleMatrix n.scale) n.rotation) n.position }

/-- `Node::updateGlobalMatrix`: if there is a parent, first the parent recomputes its own
global matrix (recursively), then this node stores the inverse of the parent's global matrix
and its own global matrix `matrix * parent_global_matrix`.  The parent's matrix is read through
a reference, hence from the heap at each use. -/
def updateGlobalMatrix : Nat → Heap → Nat → Option Heap
  | 0, _, _ => none
  | fuel + 1, h, self =>
    match (h.nodes self).parent with
    | none => some h
    | some p =>
      match updateGlobalMatrix fuel h p with
      | none => none
      | some h1 =>
        let h2 := h1.modify self fun n =>
          { n with parent_global_matrix_inv := getInverse (h1.nodes p).global_matrix }
        some (h2.modify self fun n =>
          { n with global_matrix := n.matrix * (h2.nodes p).global_matrix })

/-- `Node::update_(parent_global_matrix)`, where the argument is a reference to the
`global_matrix` of the node at `src` (the caller): store the inverse and the provisional
global matrix, run the hook, recompute the global matrix, then run `update_` on each child
with a reference to this node's global matrix. -/
def update_ (hook : Hook) : Nat → Heap → Nat → Nat → Option Heap
  | 0, _, _, _ => none
  | fuel + 1, h, self, src =>
    let h1 := h.modify self fun n =>
      { n with parent_global_matrix_inv := getInverse (h.nodes src).global_matrix }
    let h2 := h1.modify self fun n =>
      { n with global_matrix := n.matrix * (h1.nodes src).global_matrix }
    let h3 := hook h2 self
    let h4 := h3.modify self fun n =>
      { n with global_matrix := n.matrix * (h3.nodes src).global_matrix }
    (h4.nodes self).children.foldlM (fun acc o => update_ hook fuel acc o self) h4

/-- `RootNode::update`: reset the local and the global matrix to the identity, then run
`update_` on each child with a reference to the root's global matrix. -/
def RootNode.update (hook : Hook) (h : Heap) (self : Nat) : Option Heap :=
  let h1 := h.modify self fun n => { n with matrix := 1 }
  let h2 := h1.modify self fun n => { n with global_matrix := 1 }
  (h2.nodes self).children.foldlM (fun acc o => update_ hook h.next acc o self) h2

/-- `Node::find_children(name, target, out, recursive)`: for each child of `target` in
order, append it to `out` if its name is `name`, and if `recursive` search below it. -/
def find_children (name : String) (recursive : Bool) :
    Nat → Heap → Nat → List Nat → Option (List Nat)
  | 0, _, _, _ => none
  | fuel + 1, h, target, out =>
    (h.nodes target).children.foldlM (fun out child =>
      let out1 := if getName h child = name then out ++ [child] else out
      if recursive then find_children name recursive fuel h child out1 else some out1) out

/-- `Node::find(name, recursive)`. -/
def find (h : Heap) (self : Nat) (name : String) (recursive : Bool) :
    Option (List Nat) :=
  find_children name recursive h.next h self []

/-- `Node::addChild<T>(name)`: create a `T` at a fresh address, set its name, parent and
root reference, compute its global matrix from the parent chain, and append it to the
children of `self`.  Returns the new heap and the new child. -/
def addChild (h : Heap) (self : Nat) (T : Nat) (name : String) :
    Option (Heap × Nat) :=
  let o := h.next
  let x : Node := Node.new T
  let h1 : Heap :=
    { nodes := Function.update h.nodes o
        { x with name := name, parent := some self, root_node := (h.nodes self).root_node }
      next := h.next + 1 }
  match updateGlobalMatrix h1.next h1 o with
  | none => none
  | some h2 => some (h2.modify self fun n => { n with children := n.children ++ [o] }, o)

/-- `Node::removeChild(o)`: `std::remove` followed by `erase`, which drops every entry equal
to `o` and keeps the others in order. -/
def removeChild (h : Heap) (self : Nat) (o : Nat) : Heap :=
  h.modify self fun n => { n with children := n.children.filter fun c => decide (c ≠ o) }

/-- `Node::clear`. -/
def clear (h : Heap) (self : Nat) : Heap :=
  h.modify self fun n => { n with children := [] }

/-- `Node::empty`. -/
def empty (h : Heap) (self : Nat) : Bool := (h.nodes self).children.isEmpty

/-- `Node::size`. -/
def size (h : Heap) (self : Nat) : Nat := (h.nodes self).children.length

/-- The exception of `std::vector::at`. -/
inductive Error where
  | out_of_range
deriving DecidableEq

/-- `Node::at(index)`: `children.at(index)`, which throws `std::out_of_range` when the index
is not below the size.  A `const` member function: it returns a value and leaves the heap as
it is. -/
def at_ (h : Heap) (self : Nat) (index : Nat) : Except Error Nat :=
  match (h.nodes self).children.get? index with
  | some o => Except.ok o
  | none => Except.error Error.out_of_range

/-- `Node::getMatrix`. -/
def getMatrix (h : Heap) (self : Nat) : Mat := (h.nodes self).matrix

/-- `Node::setPosition`. -/
def setPosition (h : Heap) (self : Nat) (v : Vec3) : Heap :=
  h.modify self fun n => updateLocalMatrix { n with position := v }

/-- `Node::setRotation`. -/
def setRotation (h : Heap) (self : Nat) (v : Quat) : Heap :=
  h.modify self fun n => updateLocalMatrix { n with rotation := v }

/-- `Node::setScale`. -/
def setScale (h : Heap) (self : Nat) (v : Vec3) : Heap :=
  h.modify self fun n => updateLocalMatrix { n with scale := v }

/-- `Node::getPosition`. -/
def getPosition (h : Heap) (self : Nat) : Vec3 := (h.nodes self).position

/-- `Node::getRotation`. -/
def getRotation (h : Heap) (self : Nat) : Quat := (h.nodes self).rotation

/-- `Node::getScale`. -/
def getScale (h : Heap) (self : Nat) : Vec3 := (h.nodes self).scale

/-- `Node::getGlobalMatrix`. -/
def getGlobalMatrix (h : Heap) (self : Nat) : Mat := (h.nodes self).global_matrix

/-- `Node::getParentGlobalMatrixInv`. -/
def getParentGlobalMatrixInv (h : Heap) (self : Nat) : Mat :=
  (h.nodes self).parent_global_matrix_inv

/-- `Node::setGlobalPosition`: `updateGlobalMatrix()`, then
`setPosition(parent_global_matrix_inv.preMult(v))`. -/
def setGlobalPosition (h : Heap) (self : Nat) (v : Vec3) : Option Heap :=
  match updateGlobalMatrix h.next h self with
  | none => none
  | some h1 => some (setPosition h1 self (preMult (h1.nodes self).parent_global_matrix_inv v))

/-- `Node::setGlobalRotation`: `updateGlobalMatrix()`, then
`setRotation(parent_global_matrix_inv.getRotate() * v)`. -/
def setGlobalRotation (L : OfLib) (h : Heap) (self : Nat) (v : Quat) : Option Heap :=
  match updateGlobalMatrix h.next h self with
  | none => none
  | some h1 =>
    some (setRotation h1 self (L.quatMul (L.getRotate (h1.nodes self).parent_global_matrix_inv) v))

/-- `Node::setGlobalScale`: `updateGlobalMatrix()`, then
`setScale(parent_global_matrix_inv.getScale() * v)`. -/
def setGlobalScale (L : OfLib) (h : Heap) (self : Nat) (v : Vec3) : Option Heap :=
  match updateGlobalMatrix h.next h self with
  | none => none
  | some h1 =>
    some (setScale h1 self (Vec3.mul (L.getScale (h1.nodes self).parent_global_matrix_inv) v))

/-- `Node::getGlobalPosition`: the translation of the cached global matrix. -/
def getGlobalPosition (h : Heap) (self : Nat) : Vec3 :=
  getTranslation (h.nodes self).global_matrix

/-- `Node::getGlobalRotation`. -/
def getGlobalRotation (L : OfLib) (h : Heap) (self : Nat) : Quat :=
  L.getRotate (h.nodes self).global_matrix

/-- `Node::getGlobalScale`. -/
def getGlobalScale (L : OfLib) (h : Heap) (self : Nat) : Vec3 :=
  L.getScale (h.nodes self).global_matrix

/-- `Node::getNodeToNodeTransform(from, to)`:
`globalMatrix(to) * globalMatrix(from).getInverse()`. -/
def getNodeToNodeTransform (h : Heap) (src dst : Nat) : Mat :=
  getGlobalMatrix h dst * getInverse (getGlobalMatrix h src)

/-- `Node::move`: `matrix.glTranslate(v.x, v.y, v.z)`. -/
def move (h : Heap) (self : Nat) (v : Vec3) : Heap :=
  h.modify self fun n => { n with matrix := glTranslate n.matrix v }

/-- `Node::rotate(angle, axis)`: `matrix.glRotate(angle, axis.x, axis.y, axis.z)`. -/
def rotate (L : OfLib) (h : Heap) (self : Nat) (angle : ℚ) (axis : Vec3) : Heap :=
  h.modify self fun n => { n with matrix := L.axisAngleMatrix angle axis * n.matrix }

/-! ## Sequences of public operations -/

/-- The public operations that change the state; `update` is `RootNode::update` on the
root. -/
inductive Op where
  | setPosition (self : Nat) (v : Vec3)
  | setRotation (self : Nat) (v : Quat)
  | setScale (self : Nat) (v : Vec3)
  | setGlobalPosition (self : Nat) (v : Vec3)
  | setGlobalRotation (self : Nat) (v : Quat)
  | setGlobalScale (self : Nat) (v : Vec3)
  | move (self : Nat) (v : Vec3)
  | rotate (self : Nat) (angle : ℚ) (axis : Vec3)
  | addChild (self : Nat) (T : Nat) (name : String)
  | removeChild (self : Nat) (o : Nat)
  | clear (self : Nat)
  | update

/-- The object an operation is called on. -/
def Op.target : Op → Nat
  | .setPosition self _ => self
  | .setRotation self _ => self
  | .setScale self _ => self
  | .setGlobalPosition self _ => self
  | .setGlobalRotation self _ => self
  | .setGlobalScale self _ => self
  | .move self _ => self
  | .rotate self _ _ => self
  | .addChild self _ _ => self
  | .removeChild self _ => self
  | .clear self => self
  | .update => rootId

/-- Run one operation. -/
def Op.run (L : OfLib) (hook : Hook) (h : Heap) : Op → Option Heap
  | .setPosition self v => some (ofxNodeGraph.setPosition h self v)
  | .setRotation self v => some (ofxNodeGraph.setRotation h self v)
  | .setScale self v => some (ofxNodeGraph.setScale h self v)
  | .setGlobalPosition self v => ofxNodeGraph.setGlobalPosition h self v
  | .setGlobalRotation self v => ofxNodeGraph.setGlobalRotation L h self v
  | .setGlobalScale self v => ofxNodeGraph.setGlobalScale L h self v
  | .move self v => some (ofxNodeGraph.move h self v)
  | .rotate self angle axis => some (ofxNodeGraph.rotate L h self angle axis)
  | .addChild self T name => (ofxNodeGraph.addChild h self T name).map Prod.fst
  | .removeChild self o => some (ofxNodeGraph.removeChild h self o)
  | .clear self => some (ofxNodeGraph.clear h self)
  | .update => RootNode.update hook h rootId

/-- One step: an operation called on an allocated object; `none` when the object does not
exist or the operation does not return. -/
def step (L : OfLib) (hook : Hook) (h : Heap) (op : Op) : Option Heap :=
  if op.target < h.next then op.run L hook h else none

/-- The states reachable from a freshly constructed `RootNode` by public operations. -/
inductive Reachable (L : OfLib) (hook : Hook) : Heap → Prop where
  | init : Reachable L hook RootNode.new
  | step {h h1 : Heap} (op : Op) :
      Reachable L hook h → step L hook h op = some h1 → Reachable L hook h1

/-- A hook that is a no-op or changes only the local transform of its own node: its local
matrix (as `move` and `rotate` do) and the stored position, rotation and scale (as the local
setters do). -/
def Hook.Local (hook : Hook) : Prop :=
  ∀ (h : Heap) (self : Nat), ∃ (m : Mat) (p : Vec3) (r : Quat) (s : Vec3),
    hook h self = h.modify self fun n =>
      { n with matrix := m, position := p, rotation := r, scale := s }

/-- The default hook `virtual void update() {}`. -/
def noHook : Hook := fun h _ => h

/-- The nodes below `a` (`a` included): those reached from `a` through the children
sequences. -/
inductive Desc (h : Heap) (a : Nat) : Nat → Prop where
  | refl : Desc h a a
  | child {p c : Nat} : Desc h a p → c ∈ (h.nodes p).children → Desc h a c

/-- The nodes of the tree: the root and, recursively, the entries of the children
sequences. -/
def InTree (h : Heap) (n : Nat) : Prop := Desc h rootId n

/-- The node `a` is on the parent chain of `j` (`j` itself included). -/
inductive Anc (h : Heap) (a : Nat) : Nat → Prop where
  | refl : Anc h a a
  | step {j p : Nat} : (h.nodes j).parent = some p → Anc h a p → Anc h a j

/-- The members no operation changes after attachment, with the children sequences and the
allocation counter: what the shape of the tree consists of. -/
def Heap.skeleton (h : Heap) :
    Nat × (Nat → Nat × String × List Nat × Option Nat × Option Nat) :=
  (h.next, fun j => ((h.nodes j).kind, (h.nodes j).name, (h.nodes j).children,
    (h.nodes j).parent, (h.nodes j).root_node))

/-- Well-formed heaps: the root is at address 0 and has no parent, every other allocated
node has a parent at a smaller address, every entry of a children sequence is an allocated
node whose parent is the owner of the sequence, and no children sequence has a repeated
entry. -/
structure Heap.WF (h : Heap) : Prop where
  next_pos : 0 < h.next
  root_parent : (h.nodes rootId).parent = none
  parent_lt : ∀ n, 0 < n → n < h.next → ∃ p, (h.nodes n).parent = some p ∧ p < n
  child_parent : ∀ n c, n < h.next → c ∈ (h.nodes n).children →
    (h.nodes c).parent = some n ∧ c < h.next
  children_nodup : ∀ n, n < h.next → (h.nodes n).children.Nodup

/-- The cached matrices of node `n` are up to date with respect to node `p`:
`globalMatrix = localMatrix * p.globalMatrix` and
`parentGlobalMatrixInverse = inverse(p.globalMatrix)`. -/
def GlobalOK (h : Heap) (n p : Nat) : Prop :=
  (h.nodes n).global_matrix = (h.nodes n).matrix * (h.nodes p).global_matrix ∧
  (h.nodes n).parent_global_matrix_inv = getInverse (h.nodes p).global_matrix

/-- The heap `h1` differs from `h` at most in the cached global matrices and cached
inverses. -/
def CacheOnly (h h1 : Heap) : Prop :=
  h1.next = h.next ∧ ∀ j, ∃ (g i : Mat), h1.nodes j =
    { h.nodes j with global_matrix := g, parent_global_matrix_inv := i }

/-- What `update_` on `self`, called with a reference to the global matrix of `src`,
establishes: the shape is kept, only nodes with `self` on their parent chain change, `self`
is up to date with respect to `src`, and every child below `self` is up to date with respect
to its owner. -/
def UpdatePost (h : Heap) (self src : Nat) (h1 : Heap) : Prop :=
  h1.skeleton = h.skeleton ∧
  (∀ j, ¬ Anc h self j → h1.nodes j = h.nodes j) ∧
  GlobalOK h1 self src ∧
  ∀ P d, Desc h self P → d ∈ (h.nodes P).children → GlobalOK h1 d P

/-- The heap in the middle of `addChild`, after `new T` and the assignments to `name`,
`parent` and `root_node` of the new object, before `updateGlobalMatrix`. -/
def allocChild (h : Heap) (self : Nat) (T : Nat) (name : String) : Heap :=
  { nodes := Function.update h.nodes h.next
      { Node.new T with name := name, parent := some self,
                        root_node := (h.nodes self).root_node }
    next := h.next + 1 }

/-! ## Example scenes -/

/-- An instance of the library parameters, for the examples. -/
def exLib : OfLib where
  getRotate := fun _ => Quat.identity
  getScale := fun _ => Vec3.one
  quatMul := fun a _ => a
  axisAngleMatrix := fun _ _ => 1

/-- A hook that moves its node by (1,0,0) each frame (a raw nudge of the local matrix, as
the hooks of the example application are). -/
def moveHook : Hook := fun h self => move h self ⟨1, 0, 0⟩

/-- Run a list of operations from a freshly constructed `RootNode`, skipping an operation
that does not apply. -/
def runOps (L : OfLib) (hook : Hook) (ops : List Op) : Heap :=
  ops.foldl (fun h op => (step L hook h op).getD h) RootNode.new

/-- The scene `root -> A`. -/
def opsA : List Op := [Op.addChild 0 1 "A"]

/-- The scene `root -> A -> B` with A at (10,0,0) and B at (0,5,0). -/
def opsAB : List Op :=
  [Op.addChild 0 1 "A", Op.setPosition 1 ⟨10, 0, 0⟩, Op.addChild 1 1 "B",
   Op.setPosition 2 ⟨0, 5, 0⟩]

/-- The check `is_4x3` of openFrameworks: the last column of the matrix is `(0,0,0,1)`, that
is, the matrix is an affine map of points written as rows `[x y z 1]`. -/
def IsAffine (m : Mat) : Prop := m 0 3 = 0 ∧ m 1 3 = 0 ∧ m 2 3 = 0 ∧ m 3 3 = 1

/-- The scene `root -> A -> B` after one `RootNode::update`. -/
def opsABu : List Op := opsAB ++ [Op.update]

/-- A sequence of calls that includes local and global setters on the root itself. -/
def opsOnRoot : List Op :=
  [Op.addChild 0 1 "A", Op.setPosition 0 ⟨1, 2, 3⟩, Op.setGlobalPosition 0 ⟨4, 5, 6⟩,
   Op.move 0 ⟨1, 0, 0⟩, Op.update, Op.setScale 0 ⟨2, 2, 2⟩]

/-- The scene `root -> A` followed by `A.setPosition((1,0,0))`. -/
def opsAmoved : List Op := [Op.addChild 0 1 "A", Op.setPosition 1 ⟨1, 0, 0⟩]

/-- A caller that adds children to `self` one after the other, with the given classes and
names, and collects the returned handles. -/
def addChildren (h : Heap) (self : Nat) : List (Nat × String) → Option (Heap × List Nat)
  | [] => some (h, [])
  | (T, name) :: rest =>
    match addChild h self T name with
    | none => none
    | some (h1, c) =>
      match addChildren h1 self rest with
      | none => none
      | some (h2, cs) => some (h2, c :: cs)

/-- The scene of a root with three children named X, Y, X. -/
def opsXYX : List Op := [Op.addChild 0 1 "X", Op.addChild 0 1 "Y", Op.addChild 0 2 "X"]

/-- The listing that the spec describes for the recursive `find`: the proper descendants of
a node in pre-order, depth first, that is, each child followed by that child's whole subtree,
the children in insertion order.  (The fuel bounds the depth listed.) -/
def preorder : Nat → Heap → Nat → List Nat
  | 0, _, _ => []
  | fuel + 1, h, n => (h.nodes n).children.flatMap fun c => c :: preorder fuel h c

/-- A tree with a node named X at depth 3 in the first branch and a node named X at depth 1
in the second branch: `root -> [P -> Q -> X, X]`. -/
def opsDeep : List Op :=
  [Op.addChild 0 1 "P", Op.addChild 1 1 "Q", Op.addChild 2 1 "X", Op.addChild 0 1 "X"]

/-- The local matrix as the spec words it: the matrix built from the three stored
components in the fixed order Scale * Rotation, with the translation set to the position. -/
def localMatrixOf (s : Vec3) (q : Quat) (p : Vec3) : Mat :=
  setTranslation (makeScaleMatrix s * rotationMatrix q) p

/-- Modelled from the spec: the class hierarchy of the concrete node variants, which is code
of the application: `derives k T` says that the class with tag `k` derives from the class
with tag `T`. -/
structure Classes where
  derives : Nat → Nat → Bool

/-- Modelled from the spec: `std::dynamic_pointer_cast<T>`, the handle itself when the
concrete class of the object is `T` or derives from `T`, the empty handle otherwise. -/
def dynamic_pointer_cast (C : Classes) (h : Heap) (T : Nat) (o : Nat) : Option Nat :=
  if (h.nodes o).kind = T ∨ C.derives (h.nodes o).kind T = true then some o else none

/-- `Node::at<T>(index)`: `std::dynamic_pointer_cast<T>(children.at(index))`. -/
def at_T (C : Classes) (h : Heap) (self : Nat) (T : Nat) (index : Nat) :
    Except Error (Option Nat) :=
  match (h.nodes self).children.get? index with
  | some o => Except.ok (dynamic_pointer_cast C h T o)
  | none => Except.error Error.out_of_range

/-- A class hierarchy for the examples: class 2 derives from class 1. -/
def exClasses : Classes where
  derives := fun k T => decide (k = 2 ∧ T = 1)

/-! ## Facts about the matrix model -/

theorem getInverse_mul_self (m : Mat) (hm : Matrix.det m ≠ 0) : getInverse m * m = 1 := by
  unfold getInverse
  rw [Matrix.smul_mul, Matrix.adjugate_mul, smul_smul, inv_mul_cancel₀ hm, one_smul]

theorem mul_getInverse_self (m : Mat) (hm : Matrix.det m ≠ 0) : m * getInverse m = 1 := by
  unfold getInverse
  rw [Matrix.mul_smul, Matrix.mul_adjugate, smul_smul, inv_mul_cancel₀ hm, one_smul]

theorem getInverse_one : getInverse (1 : Mat) = 1 := by
  have h := getInverse_mul_self (1 : Mat) (by simp)
  simpa using h

/-! ## Facts about the heap -/

@[simp] theorem modify_nodes_self (h : Heap) (id : Nat) (f : Node → Node) :
    (h.modify id f).nodes id = f (h.nodes id) := by
  simp [Heap.modify]

@[simp] theorem modify_nodes_of_ne (h : Heap) (id j : Nat) (f : Node → Node) (hj : j ≠ id) :
    (h.modify id f).nodes j = h.nodes j := by
  simp [Heap.modify, Function.update_noteq hj]

@[simp] theorem modify_next (h : Heap) (id : Nat) (f : Node → Node) :
    (h.modify id f).next = h.next := rfl

theorem skeleton_next {h h1 : Heap} (e : h1.skeleton = h.skeleton) : h1.next = h.next :=
  congrArg Prod.fst e

theorem skeleton_children {h h1 : Heap} (e : h1.skeleton = h.skeleton) (j : Nat) :
    (h1.nodes j).children = (h.nodes j).children := by
  have := congrFun (congrArg Prod.snd e) j
  simp only [Heap.skeleton, Prod.mk.injEq] at this
  exact this.2.2.1

theorem skeleton_parent {h h1 : Heap} (e : h1.skeleton = h.skeleton) (j : Nat) :
    (h1.nodes j).parent = (h.nodes j).parent := by
  have := congrFun (congrArg Prod.snd e) j
  simp only [Heap.skeleton, Prod.mk.injEq] at this
  exact this.2.2.2.1

theorem skeleton_modify (h : Heap) (id : Nat) (f : Node → Node)
    (hk : (f (h.nodes id)).kind = (h.nodes id).kind)
    (hn : (f (h.nodes id)).name = (h.nodes id).name)
    (hc : (f (h.nodes id)).children = (h.nodes id).children)
    (hp : (f (h.nodes id)).parent = (h.nodes id).parent)
    (hr : (f (h.nodes id)).root_node = (h.nodes id).root_node) :
    (h.modify id f).skeleton = h.skeleton := by
  unfold Heap.skeleton
  refine Prod.ext rfl (funext fun j => ?_)
  by_cases hj : j = id
  · subst hj; simp [hk, hn, hc, hp, hr]
  · simp [hj]

theorem CacheOnly.refl (h : Heap) : CacheOnly h h :=
  ⟨rfl, fun j => ⟨(h.nodes j).global_matrix, (h.nodes j).parent_global_matrix_inv, rfl⟩⟩

theorem CacheOnly.skeleton {h h1 : Heap} (c : CacheOnly h h1) : h1.skeleton = h.skeleton := by
  unfold Heap.skeleton
  refine Prod.ext c.1 (funext fun j => ?_)
  obtain ⟨g, i, e⟩ := c.2 j
  simp [e]

theorem CacheOnly.matrix {h h1 : Heap} (c : CacheOnly h h1) (j : Nat) :
    (h1.nodes j).matrix = (h.nodes j).matrix := by
  obtain ⟨g, i, e⟩ := c.2 j
  simp [e]

theorem CacheOnly.cache_trans {h h1 h2 : Heap} (a : CacheOnly h h1) (b : CacheOnly h1 h2) :
    CacheOnly h h2 := by
  refine ⟨b.1.trans a.1, fun j => ?_⟩
  obtain ⟨g, i, e⟩ := a.2 j
  obtain ⟨g1, i1, e1⟩ := b.2 j
  exact ⟨g1, i1, by rw [e1, e]⟩

theorem WF_of_skeleton {h h1 : Heap} (e : h1.skeleton = h.skeleton) (w : h.WF) : h1.WF := by
  have hn := skeleton_next e
  have hp := skeleton_parent e
  have hc := skeleton_children e
  constructor
  · rw [hn]; exact w.next_pos
  · rw [hp]; exact w.root_parent
  · intro n h0 h1n; rw [hp]; rw [hn] at h1n; exact w.parent_lt n h0 h1n
  · intro n c h1n hm; rw [hn] at h1n; rw [hc] at hm; rw [hp, hn]
    exact w.child_parent n c h1n hm
  · intro n h1n; rw [hn] at h1n; rw [hc]; exact w.children_nodup n h1n

/-! ## Parent chains and subtrees -/

theorem Anc.anc_of_skeleton {h h1 : Heap} (e : h1.skeleton = h.skeleton) {a j : Nat}
    (x : Anc h a j) : Anc h1 a j := by
  induction x with
  | refl => exact Anc.refl
  | step hp _ ih => exact Anc.step (by rw [skeleton_parent e]; exact hp) ih

theorem Desc.desc_of_skeleton {h h1 : Heap} (e : h1.skeleton = h.skeleton) {a j : Nat}
    (x : Desc h a j) : Desc h1 a j := by
  induction x with
  | refl => exact Desc.refl
  | child _ hc ih => exact Desc.child ih (by rw [skeleton_children e]; exact hc)

theorem Anc.anc_trans {h : Heap} {a b j : Nat} (x : Anc h a b) (y : Anc h b j) : Anc h a j := by
  induction y with
  | refl => exact x
  | step hp _ ih => exact Anc.step hp ih

theorem Heap.WF.parent_lt_of {h : Heap} (w : h.WF) {n p : Nat} (hn : n < h.next)
    (hp : (h.nodes n).parent = some p) : p < n := by
  rcases Nat.eq_zero_or_pos n with h0 | h0
  · subst h0
    have := w.root_parent
    simp only [rootId] at this
    rw [this] at hp; cases hp
  · obtain ⟨q, hq, hlt⟩ := w.parent_lt n h0 hn
    rw [hq] at hp; cases hp; exact hlt

theorem Heap.WF.lt_of_child {h : Heap} (w : h.WF) {n c : Nat} (hn : n < h.next)
    (hc : c ∈ (h.nodes n).children) : n < c :=
  w.parent_lt_of (w.child_parent n c hn hc).2 (w.child_parent n c hn hc).1

theorem Anc.le {h : Heap} (w : h.WF) {a j : Nat} (x : Anc h a j) (hj : j < h.next) :
    a ≤ j := by
  induction x with
  | refl => exact le_refl _
  | step hp _ ih =>
    have hlt := w.parent_lt_of hj hp
    exact le_of_lt (lt_of_le_of_lt (ih (lt_trans hlt hj)) hlt)

theorem Anc.linear {h : Heap} {a b j : Nat} (x : Anc h a j) (y : Anc h b j) :
    Anc h a b ∨ Anc h b a := by
  induction x with
  | refl => exact Or.inr y
  | step hp xa ih =>
    cases y with
    | refl => exact Or.inl (Anc.step hp xa)
    | step hq yb =>
      rw [hp] at hq; cases hq
      exact ih yb

theorem Anc.siblings {h : Heap} (w : h.WF) {s c1 c2 j : Nat}
    (h1 : (h.nodes c1).parent = some s) (h2 : (h.nodes c2).parent = some s)
    (l1 : c1 < h.next) (l2 : c2 < h.next) (ne : c1 ≠ c2)
    (x : Anc h c1 j) (y : Anc h c2 j) : False := by
  have key : ∀ {u v : Nat}, (h.nodes u).parent = some s → (h.nodes v).parent = some s →
      u < h.next → v < h.next → u ≠ v → Anc h u v → False := by
    intro u v hu hv lu lv huv z
    cases z with
    | refl => exact huv rfl
    | step hq zz =>
      rw [hv] at hq; cases hq
      have hs : s < u := w.parent_lt_of lu hu
      have := Anc.le w zz (lt_trans hs lu)
      omega
  rcases Anc.linear x y with z | z
  · exact key h1 h2 l1 l2 ne z
  · exact key h2 h1 l2 l1 (Ne.symm ne) z

theorem Desc.anc {h : Heap} (w : h.WF) {a j : Nat} (ha : a < h.next) (x : Desc h a j) :
    Anc h a j ∧ j < h.next := by
  induction x with
  | refl => exact ⟨Anc.refl, ha⟩
  | child _ hc ih =>
    have := w.child_parent _ _ ih.2 hc
    exact ⟨Anc.step this.1 ih.1, this.2⟩

theorem Desc.head {h : Heap} {a j : Nat} (x : Desc h a j) :
    j = a ∨ ∃ c, c ∈ (h.nodes a).children ∧ Desc h c j := by
  induction x with
  | refl => exact Or.inl rfl
  | child xp hc ih =>
    rcases ih with e | ⟨c0, hc0, d⟩
    · subst e; exact Or.inr ⟨_, hc, Desc.refl⟩
    · exact Or.inr ⟨c0, hc0, Desc.child d hc⟩

theorem Desc.last {h : Heap} {a j : Nat} (x : Desc h a j) :
    j = a ∨ ∃ p, Desc h a p ∧ j ∈ (h.nodes p).children := by
  cases x with
  | refl => exact Or.inl rfl
  | child xp hc => exact Or.inr ⟨_, xp, hc⟩

/-! ## `updateGlobalMatrix` -/

/-- With fuel above the address, `updateGlobalMatrix` returns; it changes cached matrices
only, only on the parent chain of the node, never on the root, and leaves the node up to date
with respect to its parent. -/
theorem updateGlobalMatrix_spec : ∀ (fuel : Nat) (h : Heap) (self : Nat), h.WF →
    self < h.next → self < fuel →
    ∃ h1, updateGlobalMatrix fuel h self = some h1 ∧ CacheOnly h h1 ∧
      (∀ j, ¬ Anc h j self → h1.nodes j = h.nodes j) ∧
      h1.nodes rootId = h.nodes rootId ∧
      (∀ p, (h.nodes self).parent = some p → GlobalOK h1 self p) := by
  intro fuel
  induction fuel with
  | zero => intro h self _ _ hf; omega
  | succ fuel ih =>
    intro h self w hs hf
    unfold updateGlobalMatrix
    cases hp : (h.nodes self).parent with
    | none =>
      refine ⟨h, rfl, CacheOnly.refl h, fun _ _ => rfl, rfl, ?_⟩
      intro p hp1; cases hp1
    | some p =>
      have hlt : p < self := w.parent_lt_of hs hp
      obtain ⟨h1, e1, c1, f1, r1, _⟩ := ih h p w (lt_trans hlt hs) (by omega)
      have hne : p ≠ self := Nat.ne_of_lt hlt
      have hs0 : self ≠ rootId := by
        intro e; rw [e] at hp; rw [w.root_parent] at hp; cases hp
      simp only [e1]
      refine ⟨_, rfl, ?_, ?_, ?_, ?_⟩
      · refine ⟨by simp [c1.1], fun j => ?_⟩
        obtain ⟨g, i, e⟩ := c1.2 j
        by_cases hj : j = self
        · subst hj
          refine ⟨(h.nodes j).matrix * (h1.nodes p).global_matrix,
            getInverse (h1.nodes p).global_matrix, ?_⟩
          simp [e, hne]
        · exact ⟨g, i, by simp [hj, e]⟩
      · intro j hj
        have hjs : j ≠ self := by
          intro e; subst e; exact hj Anc.refl
        have hjp : ¬ Anc h j p := fun a => hj (Anc.step hp a)
        simp [hjs, f1 j hjp]
      · simp [Ne.symm hs0, r1]
      · intro q hq
        cases hq
        simp [GlobalOK, hne]

/-! ## The update traversal -/

theorem GlobalOK.of_eq {h h1 : Heap} {n p : Nat} (g : GlobalOK h n p)
    (en : h1.nodes n = h.nodes n) (ep : h1.nodes p = h.nodes p) : GlobalOK h1 n p := by
  unfold GlobalOK at *
  rw [en, ep]; exact g

/-- The loop of `update_` and of `RootNode::update` over a part `cs` of the children of
`self`, given that `update_` with this fuel meets `UpdatePost` on each child. -/
theorem update_loop_spec (hook : Hook) (fuel self : Nat)
    (IH : ∀ (h : Heap) (c src : Nat), h.WF → c < h.next → src < c → h.next ≤ fuel + c →
      ∃ h1, update_ hook fuel h c src = some h1 ∧ UpdatePost h c src h1) :
    ∀ (cs : List Nat) (h0 : Heap), h0.WF → self < h0.next →
      (∀ c ∈ cs, c ∈ (h0.nodes self).children) → cs.Nodup → h0.next ≤ fuel + self + 1 →
      ∃ h1, cs.foldlM (fun acc o => update_ hook fuel acc o self) h0 = some h1 ∧
        h1.skeleton = h0.skeleton ∧
        (∀ j, (∀ c ∈ cs, ¬ Anc h0 c j) → h1.nodes j = h0.nodes j) ∧
        (∀ c ∈ cs, GlobalOK h1 c self) ∧
        (∀ c ∈ cs, ∀ P d, Desc h0 c P → d ∈ (h0.nodes P).children → GlobalOK h1 d P) := by
  intro cs
  induction cs with
  | nil =>
    intro h0 _ _ _ _ _
    exact ⟨h0, rfl, rfl, fun _ _ => rfl, by simp, by simp⟩
  | cons c rest ih =>
    intro h0 w hs hsub hnd hfuel
    have hc : c ∈ (h0.nodes self).children := hsub c (List.mem_cons_self _ _)
    have hcp := w.child_parent self c hs hc
    have hlt : self < c := w.lt_of_child hs hc
    obtain ⟨h1, e1, sk1, fr1, ok1, sub1⟩ := IH h0 c self w hcp.2 hlt (by omega)
    have w1 := WF_of_skeleton sk1 w
    have hnd2 := List.nodup_cons.1 hnd
    obtain ⟨h2, e2, sk2, fr2, ok2, sub2⟩ := ih h1 w1 (by rw [skeleton_next sk1]; exact hs)
      (fun c1 hc1 => by
        rw [skeleton_children sk1]; exact hsub c1 (List.mem_cons_of_mem _ hc1))
      hnd2.2 (by rw [skeleton_next sk1]; exact hfuel)
    -- nodes below `c`, and `self`, are not below a later sibling
    have sep : ∀ j, Anc h0 c j → ∀ c1 ∈ rest, ¬ Anc h1 c1 j := by
      intro j aj c1 hc1 a1
      have a0 : Anc h0 c1 j := Anc.anc_of_skeleton sk1.symm a1
      have hc1p := w.child_parent self c1 hs (hsub c1 (List.mem_cons_of_mem _ hc1))
      have hne : c ≠ c1 := fun e => hnd2.1 (e ▸ hc1)
      exact Anc.siblings w hcp.1 hc1p.1 hcp.2 hc1p.2 hne aj a0
    have sepself : ∀ c1 ∈ rest, ¬ Anc h1 c1 self := by
      intro c1 hc1 a1
      have a0 : Anc h0 c1 self := Anc.anc_of_skeleton sk1.symm a1
      have := Anc.le w a0 hs
      have := w.lt_of_child hs (hsub c1 (List.mem_cons_of_mem _ hc1))
      omega
    have eself : h2.nodes self = h1.nodes self := fr2 self sepself
    refine ⟨h2, ?_, sk2.trans sk1, ?_, ?_, ?_⟩
    · simp [List.foldlM_cons, e1, e2]
    · intro j hj
      rw [fr2 j (fun c1 hc1 a1 =>
        hj c1 (List.mem_cons_of_mem _ hc1) (Anc.anc_of_skeleton sk1.symm a1))]
      exact fr1 j (hj c (List.mem_cons_self _ _))
    · intro c1 hc1
      rcases List.mem_cons.1 hc1 with e | hc1
      · subst e
        exact ok1.of_eq (fr2 _ (sep _ Anc.refl)) eself
      · exact ok2 c1 hc1
    · intro c1 hc1 P d dP hd
      rcases List.mem_cons.1 hc1 with e | hc1
      · subst e
        have aP := Desc.anc w hcp.2 dP
        have ad := Desc.anc w hcp.2 (Desc.child dP hd)
        exact (sub1 P d dP hd).of_eq (fr2 _ (sep _ ad.1)) (fr2 _ (sep _ aP.1))
      · exact sub2 c1 hc1 P d (Desc.desc_of_skeleton sk1 dP) (by rw [skeleton_children sk1]; exact hd)

/-- With enough fuel `update_` returns and meets `UpdatePost`, for a hook that changes only
the local transform of its own node. -/
theorem update__spec (hook : Hook) (hl : hook.Local) :
    ∀ (fuel : Nat) (h : Heap) (self src : Nat), h.WF → self < h.next → src < self →
      h.next ≤ fuel + self →
      ∃ h1, update_ hook fuel h self src = some h1 ∧ UpdatePost h self src h1 := by
  intro fuel
  induction fuel with
  | zero => intro h self src _ hs _ hf; omega
  | succ fuel ih =>
    intro h self src w hs hsrc hf
    have hne : src ≠ self := Nat.ne_of_lt hsrc
    obtain ⟨m, p, r, s, hm⟩ := hl ((h.modify self fun n =>
      { n with parent_global_matrix_inv := getInverse (h.nodes src).global_matrix }).modify self
        fun n => { n with global_matrix := n.matrix * ((h.modify self fun n =>
      { n with parent_global_matrix_inv :=
          getInverse (h.nodes src).global_matrix }).nodes src).global_matrix }) self
    unfold update_
    simp only [hm]
    generalize hh4 : Heap.modify _ self _ = h4
    have e4 : ∀ j, j ≠ self → h4.nodes j = h.nodes j := by
      intro j hj; rw [← hh4]; simp [hj]
    have e4s : h4.nodes self = { h.nodes self with
        parent_global_matrix_inv := getInverse (h.nodes src).global_matrix
        matrix := m, position := p, rotation := r, scale := s
        global_matrix := m * (h.nodes src).global_matrix } := by
      rw [← hh4]; simp [hne]
    have sk4 : h4.skeleton = h.skeleton := by
      unfold Heap.skeleton
      refine Prod.ext (by rw [← hh4]; rfl) (funext fun j => ?_)
      by_cases hj : j = self
      · subst hj; simp [e4s]
      · simp [e4 j hj]
    have w4 := WF_of_skeleton sk4 w
    obtain ⟨h5, e5, sk5, fr5, ok5, sub5⟩ := update_loop_spec hook fuel self
      (fun h c src w hc hs hf => ih h c src w hc hs hf)
      (h4.nodes self).children h4 w4 (by rw [skeleton_next sk4]; exact hs)
      (fun c hc => hc) (w4.children_nodup self (by rw [skeleton_next sk4]; exact hs))
      (by rw [skeleton_next sk4]; omega)
    have notunder : ∀ j, j ≤ self → j < h.next → ∀ c ∈ (h4.nodes self).children, ¬ Anc h4 c j := by
      intro j hj hjn c hc a
      have := Anc.le w (Anc.anc_of_skeleton sk4.symm a) hjn
      have := w4.lt_of_child (by rw [skeleton_next sk4]; exact hs) hc
      omega
    refine ⟨h5, e5, sk5.trans sk4, ?_, ?_, ?_⟩
    · intro j hj
      have hjs : j ≠ self := fun e => hj (e ▸ Anc.refl)
      rw [fr5 j ?_, e4 j hjs]
      intro c hc a
      have hcp := w4.child_parent self c (by rw [skeleton_next sk4]; exact hs) hc
      exact hj (Anc.anc_of_skeleton sk4.symm (Anc.step hcp.1 Anc.refl |>.anc_trans a))
    · have g4 : GlobalOK h4 self src := by
        unfold GlobalOK
        rw [e4 src hne, e4s]
        exact ⟨rfl, rfl⟩
      exact g4.of_eq (fr5 _ (notunder self (le_refl _) hs))
        (fr5 _ (notunder src (le_of_lt hsrc) (lt_trans hsrc hs)))
    · intro P d dP hd
      rcases dP.head with e | ⟨c, hc, dc⟩
      · subst e
        exact ok5 d (by rw [skeleton_children sk4]; exact hd)
      · exact sub5 c (by rw [skeleton_children sk4]; exact hc) P d (Desc.desc_of_skeleton sk4 dc)
          (by rw [skeleton_children sk4]; exact hd)

/-- `RootNode::update` returns; it keeps the shape, leaves the root with identity local and
global matrix, and leaves every child in the tree up to date with respect to its owner. -/
theorem RootNode_update_spec (hook : Hook) (hl : hook.Local) (h : Heap) (w : h.WF) :
    ∃ h1, RootNode.update hook h rootId = some h1 ∧ h1.skeleton = h.skeleton ∧
      h1.nodes rootId = { h.nodes rootId with matrix := 1, global_matrix := 1 } ∧
      (∀ j, ¬ Anc h rootId j → h1.nodes j = h.nodes j) ∧
      ∀ P d, Desc h rootId P → d ∈ (h.nodes P).children → GlobalOK h1 d P := by
  unfold RootNode.update
  simp only []
  generalize hh2 : Heap.modify _ rootId _ = h2
  have e2 : ∀ j, j ≠ rootId → h2.nodes j = h.nodes j := by
    intro j hj; rw [← hh2]; simp [hj]
  have e2s : h2.nodes rootId = { h.nodes rootId with matrix := 1, global_matrix := 1 } := by
    rw [← hh2]; simp
  have sk2 : h2.skeleton = h.skeleton := by
    unfold Heap.skeleton
    refine Prod.ext (by rw [← hh2]; rfl) (funext fun j => ?_)
    by_cases hj : j = rootId
    · subst hj; simp [e2s]
    · simp [e2 j hj]
  have w2 := WF_of_skeleton sk2 w
  have hr2 : rootId < h2.next := w2.next_pos
  obtain ⟨h3, e3, sk3, fr3, ok3, sub3⟩ := update_loop_spec hook h.next rootId
    (update__spec hook hl h.next) (h2.nodes rootId).children h2 w2 hr2
    (fun c hc => hc) (w2.children_nodup rootId hr2)
    (by rw [skeleton_next sk2]; omega)
  refine ⟨h3, e3, sk3.trans sk2, ?_, ?_, ?_⟩
  · rw [fr3 rootId ?_, e2s]
    intro c hc a
    have h1 := Anc.le w2 a hr2
    have h2 := w2.lt_of_child hr2 hc
    omega
  · intro j hj
    have hjs : j ≠ rootId := fun e => hj (e ▸ Anc.refl)
    rw [fr3 j ?_, e2 j hjs]
    intro c hc a
    have hcp := w2.child_parent rootId c hr2 hc
    exact hj (Anc.anc_of_skeleton sk2.symm (Anc.step hcp.1 Anc.refl |>.anc_trans a))
  · intro P d dP hd
    rcases dP.head with e | ⟨c, hc, dc⟩
    · subst e
      exact ok3 d (by rw [skeleton_children sk2]; exact hd)
    · exact sub3 c (by rw [skeleton_children sk2]; exact hc) P d (Desc.desc_of_skeleton sk2 dc)
        (by rw [skeleton_children sk2]; exact hd)

/-! ## Well-formedness is kept by every operation -/

theorem RootNode_new_WF : RootNode.new.WF := by
  constructor
  · decide
  · simp [RootNode.new, rootId, Node.new]
  · intro n h0 h1; simp only [RootNode.new] at h1; omega
  · intro n c h1 hc
    simp only [RootNode.new] at h1
    have : n = 0 := by omega
    subst this
    simp [RootNode.new, rootId, Node.new] at hc
  · intro n h1
    simp only [RootNode.new] at h1
    have : n = 0 := by omega
    subst this
    simp [RootNode.new, rootId, Node.new]

theorem allocChild_WF (h : Heap) (self T : Nat) (name : String) (w : h.WF)
    (hs : self < h.next) : (allocChild h self T name).WF := by
  have old : ∀ j, j < h.next → (allocChild h self T name).nodes j = h.nodes j := by
    intro j hj
    have : j ≠ h.next := Nat.ne_of_lt hj
    simp [allocChild, Function.update_noteq this]
  have new : (allocChild h self T name).nodes h.next =
      { Node.new T with name := name, parent := some self,
                        root_node := (h.nodes self).root_node } := by
    simp [allocChild]
  have hn : (allocChild h self T name).next = h.next + 1 := rfl
  constructor
  · rw [hn]; omega
  · rw [old rootId w.next_pos]; exact w.root_parent
  · intro n h0 h1
    rw [hn] at h1
    by_cases e : n = h.next
    · subst e; rw [new]; exact ⟨self, rfl, hs⟩
    · rw [old n (by omega)]; exact w.parent_lt n h0 (by omega)
  · intro n c h1 hc
    rw [hn] at h1
    by_cases e : n = h.next
    · subst e; rw [new] at hc; simp [Node.new] at hc
    · have hlt : n < h.next := by omega
      rw [old n hlt] at hc
      have := w.child_parent n c hlt hc
      rw [old c this.2, hn]
      exact ⟨this.1, by omega⟩
  · intro n h1
    rw [hn] at h1
    by_cases e : n = h.next
    · subst e; rw [new]; simp [Node.new]
    · rw [old n (by omega)]; exact w.children_nodup n (by omega)

/-- `addChild` returns: the result is the allocation heap with refreshed caches on the
parent chain of the new node, and the new node appended to the children of `self`. -/
theorem addChild_spec (h : Heap) (self T : Nat) (name : String) (w : h.WF)
    (hs : self < h.next) :
    ∃ h2, addChild h self T name =
        some (h2.modify self fun n => { n with children := n.children ++ [h.next] }, h.next) ∧
      CacheOnly (allocChild h self T name) h2 ∧
      h2.nodes rootId = h.nodes rootId ∧
      GlobalOK h2 h.next self ∧
      (∀ j, ¬ Anc (allocChild h self T name) j h.next →
        h2.nodes j = (allocChild h self T name).nodes j) := by
  have wa := allocChild_WF h self T name w hs
  obtain ⟨h2, e2, c2, f2, r2, g2⟩ := updateGlobalMatrix_spec (allocChild h self T name).next
    (allocChild h self T name) h.next wa (by simp [allocChild]) (by simp [allocChild])
  refine ⟨h2, ?_, c2, ?_, ?_, f2⟩
  · unfold addChild
    simp only []
    change (match updateGlobalMatrix (allocChild h self T name).next
      (allocChild h self T name) h.next with
      | none => none
      | some h2 => some (h2.modify self fun n => { n with children := n.children ++ [h.next] },
          h.next)) = _
    rw [e2]
  · rw [r2]
    have : rootId ≠ h.next := Nat.ne_of_lt w.next_pos
    simp [allocChild, Function.update_noteq this]
  · exact g2 self (by simp [allocChild])

theorem addChild_WF (h : Heap) (self T : Nat) (name : String) (w : h.WF)
    (hs : self < h.next) (h3 : Heap) (o : Nat) (e : addChild h self T name = some (h3, o)) :
    h3.WF := by
  obtain ⟨h2, e2, c2, _, _, _⟩ := addChild_spec h self T name w hs
  rw [e2] at e
  simp only [Option.some.injEq, Prod.mk.injEq] at e
  obtain ⟨e3, _⟩ := e
  subst e3
  have w2 : h2.WF := WF_of_skeleton c2.skeleton (allocChild_WF h self T name w hs)
  have hn : h2.next = h.next + 1 := c2.1
  have hs2 : self < h2.next := by omega
  have hnew : (h2.nodes h.next).parent = some self := by
    rw [skeleton_parent c2.skeleton]; simp [allocChild]
  have hold : ∀ c, c ∈ (h2.nodes self).children → c < h.next := by
    intro c hc
    rw [skeleton_children c2.skeleton] at hc
    have hne : self ≠ h.next := Nat.ne_of_lt hs
    simp only [allocChild, Function.update_noteq hne] at hc
    exact (w.child_parent self c hs hc).2
  have par : ∀ j, ((h2.modify self fun n =>
      { n with children := n.children ++ [h.next] }).nodes j).parent = (h2.nodes j).parent := by
    intro j
    by_cases hj : j = self
    · subst hj; simp
    · simp [hj]
  constructor
  · exact w2.next_pos
  · rw [par]; exact w2.root_parent
  · intro n h0 h1; rw [par]; exact w2.parent_lt n h0 h1
  · intro n c h1 hc
    rw [par]
    by_cases hj : n = self
    · subst hj
      simp only [modify_nodes_self, List.mem_append, List.mem_singleton] at hc
      rcases hc with hc | hc
      · exact w2.child_parent n c h1 hc
      · subst hc; exact ⟨hnew, by simp [hn]⟩
    · rw [modify_nodes_of_ne _ _ _ _ hj] at hc
      exact w2.child_parent n c h1 hc
  · intro n h1
    by_cases hj : n = self
    · subst hj
      simp only [modify_nodes_self]
      refine List.Nodup.append (w2.children_nodup n h1) (List.nodup_singleton _) ?_
      intro c hc hc1
      have := hold c hc
      simp only [List.mem_singleton] at hc1
      omega
    · rw [modify_nodes_of_ne _ _ _ _ hj]
      exact w2.children_nodup n h1

theorem setPosition_skeleton (h : Heap) (self : Nat) (v : Vec3) :
    (setPosition h self v).skeleton = h.skeleton :=
  skeleton_modify h self _ rfl rfl rfl rfl rfl

theorem setRotation_skeleton (h : Heap) (self : Nat) (v : Quat) :
    (setRotation h self v).skeleton = h.skeleton :=
  skeleton_modify h self _ rfl rfl rfl rfl rfl

theorem setScale_skeleton (h : Heap) (self : Nat) (v : Vec3) :
    (setScale h self v).skeleton = h.skeleton :=
  skeleton_modify h self _ rfl rfl rfl rfl rfl

theorem move_skeleton (h : Heap) (self : Nat) (v : Vec3) :
    (move h self v).skeleton = h.skeleton :=
  skeleton_modify h self _ rfl rfl rfl rfl rfl

theorem rotate_skeleton (L : OfLib) (h : Heap) (self : Nat) (angle : ℚ) (axis : Vec3) :
    (rotate L h self angle axis).skeleton = h.skeleton :=
  skeleton_modify h self _ rfl rfl rfl rfl rfl

/-- The global setters return on a well-formed heap: the heap after the
`updateGlobalMatrix` step, then the local setter. -/
theorem setGlobalPosition_spec (h : Heap) (self : Nat) (v : Vec3) (w : h.WF)
    (hs : self < h.next) :
    ∃ h1, updateGlobalMatrix h.next h self = some h1 ∧ CacheOnly h h1 ∧
      setGlobalPosition h self v =
        some (setPosition h1 self (preMult (h1.nodes self).parent_global_matrix_inv v)) := by
  obtain ⟨h1, e1, c1, _⟩ := updateGlobalMatrix_spec h.next h self w hs hs
  exact ⟨h1, e1, c1, by unfold setGlobalPosition; rw [e1]⟩

theorem setGlobalRotation_spec (L : OfLib) (h : Heap) (self : Nat) (v : Quat) (w : h.WF)
    (hs : self < h.next) :
    ∃ h1, updateGlobalMatrix h.next h self = some h1 ∧ CacheOnly h h1 ∧
      setGlobalRotation L h self v = some (setRotation h1 self
        (L.quatMul (L.getRotate (h1.nodes self).parent_global_matrix_inv) v)) := by
  obtain ⟨h1, e1, c1, _⟩ := updateGlobalMatrix_spec h.next h self w hs hs
  exact ⟨h1, e1, c1, by unfold setGlobalRotation; rw [e1]⟩

theorem setGlobalScale_spec (L : OfLib) (h : Heap) (self : Nat) (v : Vec3) (w : h.WF)
    (hs : self < h.next) :
    ∃ h1, updateGlobalMatrix h.next h self = some h1 ∧ CacheOnly h h1 ∧
      setGlobalScale L h self v = some (setScale h1 self
        (Vec3.mul (L.getScale (h1.nodes self).parent_global_matrix_inv) v)) := by
  obtain ⟨h1, e1, c1, _⟩ := updateGlobalMatrix_spec h.next h self w hs hs
  exact ⟨h1, e1, c1, by unfold setGlobalScale; rw [e1]⟩

theorem removeChild_WF (h : Heap) (self o : Nat) (w : h.WF) : (removeChild h self o).WF := by
  have par : ∀ j, ((removeChild h self o).nodes j).parent = (h.nodes j).parent := by
    intro j
    by_cases hj : j = self
    · subst hj; simp [removeChild]
    · simp [removeChild, hj]
  have chi : ∀ j c, c ∈ ((removeChild h self o).nodes j).children → c ∈ (h.nodes j).children := by
    intro j c hc
    by_cases hj : j = self
    · subst hj
      simp only [removeChild, modify_nodes_self] at hc
      exact (List.mem_filter.1 hc).1
    · simpa [removeChild, hj] using hc
  constructor
  · exact w.next_pos
  · rw [par]; exact w.root_parent
  · intro n h0 h1; rw [par]; exact w.parent_lt n h0 h1
  · intro n c h1 hc; rw [par]; exact w.child_parent n c h1 (chi n c hc)
  · intro n h1
    by_cases hj : n = self
    · subst hj
      simp only [removeChild, modify_nodes_self]
      exact (w.children_nodup n h1).filter _
    · simp only [removeChild, modify_nodes_of_ne _ _ _ _ hj]
      exact w.children_nodup n h1

theorem clear_WF (h : Heap) (self : Nat) (w : h.WF) : (clear h self).WF := by
  have par : ∀ j, ((clear h self).nodes j).parent = (h.nodes j).parent := by
    intro j
    by_cases hj : j = self
    · subst hj; simp [clear]
    · simp [clear, hj]
  have chi : ∀ j c, c ∈ ((clear h self).nodes j).children → c ∈ (h.nodes j).children := by
    intro j c hc
    by_cases hj : j = self
    · subst hj
      simp [clear] at hc
    · simpa [clear, hj] using hc
  constructor
  · exact w.next_pos
  · rw [par]; exact w.root_parent
  · intro n h0 h1; rw [par]; exact w.parent_lt n h0 h1
  · intro n c h1 hc; rw [par]; exact w.child_parent n c h1 (chi n c hc)
  · intro n h1
    by_cases hj : n = self
    · subst hj
      simp [clear]
    · simp only [clear, modify_nodes_of_ne _ _ _ _ hj]
      exact w.children_nodup n h1

/-- Every operation called on an allocated object of a well-formed heap returns. -/
theorem step_total (L : OfLib) (hook : Hook) (hl : hook.Local) (h : Heap) (w : h.WF)
    (op : Op) (ht : op.target < h.next) : ∃ h1, step L hook h op = some h1 := by
  unfold step
  rw [if_pos ht]
  cases op with
  | setGlobalPosition self v =>
    obtain ⟨h1, _, _, e⟩ := setGlobalPosition_spec h self v w ht
    exact ⟨_, e⟩
  | setGlobalRotation self v =>
    obtain ⟨h1, _, _, e⟩ := setGlobalRotation_spec L h self v w ht
    exact ⟨_, e⟩
  | setGlobalScale self v =>
    obtain ⟨h1, _, _, e⟩ := setGlobalScale_spec L h self v w ht
    exact ⟨_, e⟩
  | addChild self T name =>
    obtain ⟨h2, e, _⟩ := addChild_spec h self T name w ht
    simp only [Op.run, e, Option.map_some']
    exact ⟨_, rfl⟩
  | update =>
    obtain ⟨h1, e, _⟩ := RootNode_update_spec hook hl h w
    exact ⟨h1, e⟩
  | _ => exact ⟨_, rfl⟩

/-- Every operation keeps the heap well-formed. -/
theorem step_WF (L : OfLib) (hook : Hook) (hl : hook.Local) (h h1 : Heap) (w : h.WF)
    (op : Op) (e : step L hook h op = some h1) : h1.WF := by
  unfold step at e
  by_cases ht : op.target < h.next
  · rw [if_pos ht] at e
    cases op with
    | setPosition self v =>
      cases e; exact WF_of_skeleton (setPosition_skeleton h self v) w
    | setRotation self v =>
      cases e; exact WF_of_skeleton (setRotation_skeleton h self v) w
    | setScale self v =>
      cases e; exact WF_of_skeleton (setScale_skeleton h self v) w
    | setGlobalPosition self v =>
      obtain ⟨h2, _, c, e2⟩ := setGlobalPosition_spec h self v w ht
      simp only [Op.run] at e
      rw [e2] at e; cases e
      exact WF_of_skeleton (setPosition_skeleton h2 self _) (WF_of_skeleton c.skeleton w)
    | setGlobalRotation self v =>
      obtain ⟨h2, _, c, e2⟩ := setGlobalRotation_spec L h self v w ht
      simp only [Op.run] at e
      rw [e2] at e; cases e
      exact WF_of_skeleton (setRotation_skeleton h2 self _) (WF_of_skeleton c.skeleton w)
    | setGlobalScale self v =>
      obtain ⟨h2, _, c, e2⟩ := setGlobalScale_spec L h self v w ht
      simp only [Op.run] at e
      rw [e2] at e; cases e
      exact WF_of_skeleton (setScale_skeleton h2 self _) (WF_of_skeleton c.skeleton w)
    | move self v =>
      cases e; exact WF_of_skeleton (move_skeleton h self v) w
    | rotate self angle axis =>
      cases e; exact WF_of_skeleton (rotate_skeleton L h self angle axis) w
    | addChild self T name =>
      simp only [Op.run] at e
      cases e3 : ofxNodeGraph.addChild h self T name with
      | none => rw [e3] at e; cases e
      | some r =>
        rw [e3] at e
        cases e
        exact addChild_WF h self T name w ht r.1 r.2 e3
    | removeChild self o =>
      cases e; exact removeChild_WF h self o w
    | clear self =>
      cases e; exact clear_WF h self w
    | update =>
      obtain ⟨h2, e2, sk, _⟩ := RootNode_update_spec hook hl h w
      simp only [Op.run] at e
      rw [e2] at e; cases e
      exact WF_of_skeleton sk w
  · rw [if_neg ht] at e; cases e

/-- Every reachable heap is well-formed. -/
theorem Reachable.WF {L : OfLib} {hook : Hook} (hl : hook.Local) {h : Heap}
    (r : Reachable L hook h) : h.WF := by
  induction r with
  | init => exact RootNode_new_WF
  | step op _ e ih => exact step_WF L hook hl _ _ ih op e

theorem runOps_reachable (L : OfLib) (hook : Hook) (ops : List Op) :
    Reachable L hook (runOps L hook ops) := by
  unfold runOps
  suffices H : ∀ (h : Heap), Reachable L hook h →
      Reachable L hook (ops.foldl (fun h op => (step L hook h op).getD h) h) from
    H _ Reachable.init
  induction ops with
  | nil => intro h r; exact r
  | cons op rest ih =>
    intro h r
    simp only [List.foldl_cons]
    apply ih
    cases e : step L hook h op with
    | none => simpa using r
    | some h1 => simpa using Reachable.step op r e

theorem noHook_local : Hook.Local noHook := by
  intro h self
  refine ⟨(h.nodes self).matrix, (h.nodes self).position, (h.nodes self).rotation,
    (h.nodes self).scale, ?_⟩
  simp [noHook, Heap.modify]

theorem moveHook_local : Hook.Local moveHook := by
  intro h self
  refine ⟨glTranslate (h.nodes self).matrix ⟨1, 0, 0⟩, (h.nodes self).position,
    (h.nodes self).rotation, (h.nodes self).scale, ?_⟩
  simp [moveHook, move, Heap.modify]

/-- The shape of the scene `root -> A -> B`. -/
theorem sceneAB_shape (hook : Hook) :
    ((runOps exLib hook opsAB).nodes 0).children = [1] ∧
    ((runOps exLib hook opsAB).nodes 1).children = [2] ∧
    ((runOps exLib hook opsAB).nodes 2).parent = some 1 := by
  simp [runOps, opsAB, step, Op.target, Op.run, addChild, updateGlobalMatrix, RootNode.new,
    Heap.modify, Node.new, getInverse_one, rootId, setPosition, updateLocalMatrix]

/-! ## C1: the global matrices after a traversal -/

/-- C1: for every reachable tree and every hook that changes only the local transform of
its own node, `RootNode::update` returns, and afterwards every non-root node `N` of the tree
with parent `P` has `globalMatrix = localMatrix * P.globalMatrix` (with the local matrix the
hook left) and `parentGlobalMatrixInverse = inverse(P.globalMatrix)`. -/
theorem C1_update_refreshes_tree (L : OfLib) (hook : Hook) (hl : hook.Local) (h : Heap)
    (hr : Reachable L hook h) :
    ∃ h1, RootNode.update hook h rootId = some h1 ∧
      ∀ N P, InTree h1 N → (h1.nodes N).parent = some P →
        (h1.nodes N).global_matrix = (h1.nodes N).matrix * (h1.nodes P).global_matrix ∧
        (h1.nodes N).parent_global_matrix_inv = getInverse (h1.nodes P).global_matrix := by
  have w := hr.WF hl
  obtain ⟨h1, e1, sk, _, _, sub⟩ := RootNode_update_spec hook hl h w
  refine ⟨h1, e1, ?_⟩
  intro N P tN hP
  have dN : Desc h rootId N := Desc.desc_of_skeleton sk.symm tN
  rw [skeleton_parent sk] at hP
  rcases dN.last with e | ⟨p, dp, hc⟩
  · subst e; rw [w.root_parent] at hP; cases hP
  · have hp := (Desc.anc w w.next_pos dp).2
    have := (w.child_parent p N hp hc).1
    rw [this] at hP; cases hP
    exact sub _ N dp hc

/-- C1 at the scene `root -> A -> B`, with a hook that moves each node: after the update
node B is up to date with respect to its parent A. -/
theorem C1_update_refreshes_tree_witness :
    Hook.Local moveHook ∧ Reachable exLib moveHook (runOps exLib moveHook opsAB) ∧
    ∃ h1, RootNode.update moveHook (runOps exLib moveHook opsAB) rootId = some h1 ∧
      InTree h1 2 ∧ (h1.nodes 2).parent = some 1 ∧
      (h1.nodes 2).global_matrix = (h1.nodes 2).matrix * (h1.nodes 1).global_matrix ∧
      (h1.nodes 2).parent_global_matrix_inv = getInverse (h1.nodes 1).global_matrix := by
  have hr := runOps_reachable exLib moveHook opsAB
  obtain ⟨h1, e1, H⟩ := C1_update_refreshes_tree exLib moveHook moveHook_local _ hr
  obtain ⟨h2, e2, sk, _⟩ := RootNode_update_spec moveHook moveHook_local _ (hr.WF moveHook_local)
  rw [e1] at e2
  cases e2
  obtain ⟨c0, c1, p2⟩ := sceneAB_shape moveHook
  have t : InTree h1 2 := by
    have t0 : Desc (runOps exLib moveHook opsAB) rootId 2 :=
      Desc.child (Desc.child Desc.refl (show 1 ∈ _ by rw [rootId, c0]; simp))
        (show 2 ∈ _ by rw [c1]; simp)
    exact Desc.desc_of_skeleton sk t0
  have p : (h1.nodes 2).parent = some 1 := by rw [skeleton_parent sk, p2]
  exact ⟨moveHook_local, hr, h1, e1, t, p, H 2 1 t p⟩

/-! ## Translation matrices -/

theorem translationMatrix_mul (a b : Vec3) :
    translationMatrix a * translationMatrix b = translationMatrix ⟨a.x + b.x, a.y + b.y, a.z + b.z⟩ := by
  ext i j
  fin_cases i <;> fin_cases j <;>
    simp [translationMatrix, Matrix.mul_apply, Fin.sum_univ_four]

theorem translationMatrix_zero : translationMatrix ⟨0, 0, 0⟩ = 1 := by
  ext i j
  fin_cases i <;> fin_cases j <;> simp [translationMatrix, Matrix.vecHead, Matrix.vecTail]

theorem translationMatrix_det (a : Vec3) : Matrix.det (translationMatrix a) = 1 := by
  rw [Matrix.det_succ_row_zero]
  simp [Fin.sum_univ_succ, translationMatrix, Matrix.det_fin_three, Matrix.submatrix, Fin.succAbove]

theorem localMatrix_translation (p : Vec3) :
    setTranslation (rotateQ (makeScaleMatrix Vec3.one) Quat.identity) p = translationMatrix p := by
  ext i j
  fin_cases i <;> fin_cases j <;>
    simp [setTranslation, rotateQ, Quat.zeroRotation, Quat.identity, makeScaleMatrix, Vec3.one,
      translationMatrix, Matrix.vecHead, Matrix.vecTail]

/-! ## Affine matrices and `preMult` -/

theorem isAffine_iff_mulVec (m : Mat) :
    IsAffine m ↔ m.mulVec ![0, 0, 0, 1] = ![0, 0, 0, 1] := by
  constructor
  · rintro ⟨h0, h1, h2, h3⟩
    funext i
    fin_cases i <;> simp [Matrix.mulVec, Matrix.dotProduct, Fin.sum_univ_four, h0, h1, h2, h3]
  · intro e
    have e0 := congrFun e 0
    have e1 := congrFun e 1
    have e2 := congrFun e 2
    have e3 := congrFun e 3
    simp [Matrix.mulVec, Matrix.dotProduct, Fin.sum_univ_four] at e0 e1 e2 e3
    exact ⟨e0, e1, e2, e3⟩

theorem getInverse_affine (m : Mat) (hm : Matrix.det m ≠ 0) (a : IsAffine m) :
    IsAffine (getInverse m) := by
  rw [isAffine_iff_mulVec] at a ⊢
  calc (getInverse m).mulVec ![0, 0, 0, 1]
      = (getInverse m).mulVec (m.mulVec ![0, 0, 0, 1]) := by rw [a]
    _ = (getInverse m * m).mulVec ![0, 0, 0, 1] := by rw [Matrix.mulVec_mulVec]
    _ = ![0, 0, 0, 1] := by rw [getInverse_mul_self m hm, Matrix.one_mulVec]

theorem preMult_affine (m : Mat) (v : Vec3) (a : IsAffine m) :
    Vec3.row (preMult m v) = Matrix.vecMul (Vec3.row v) m := by
  obtain ⟨h0, h1, h2, h3⟩ := a
  funext i
  fin_cases i <;>
    simp [Vec3.row, preMult, Matrix.vecMul, Matrix.dotProduct, Fin.sum_univ_four, h0, h1, h2, h3]
    <;> ring

theorem rotationMatrix_last (q : Quat) (k : Fin 4) :
    rotationMatrix q k 3 = if k = 3 then 1 else 0 := by
  unfold rotationMatrix
  simp only []
  split <;> fin_cases k <;> simp

theorem localMatrix_row3 (s : Vec3) (q : Quat) (p : Vec3) :
    setTranslation (rotateQ (makeScaleMatrix s) q) p 3 = Vec3.row p := by
  funext j
  fin_cases j
  · simp [setTranslation, Vec3.row]
  · simp [setTranslation, Vec3.row]
  · simp [setTranslation, Vec3.row]
  · have key : rotateQ (makeScaleMatrix s) q 3 3 = 1 := by
      unfold rotateQ
      by_cases hz : q.zeroRotation = true
      · rw [if_pos hz]; simp [makeScaleMatrix]
      · rw [if_neg hz]
        rw [Matrix.mul_apply]
        simp [makeScaleMatrix, Fin.sum_univ_four, rotationMatrix_last]
    simpa [setTranslation, Vec3.row] using key

theorem getTranslation_mul (m G : Mat) (p v : Vec3) (hm : m 3 = Vec3.row p)
    (hv : Matrix.vecMul (Vec3.row p) G = Vec3.row v) : getTranslation (m * G) = v := by
  have key : ∀ j, (m * G) 3 j = Vec3.row v j := by
    intro j
    rw [← hv, Matrix.mul_apply, ← hm]
    rfl
  have k0 := key 0
  have k1 := key 1
  have k2 := key 2
  simp [Vec3.row] at k0 k1 k2
  cases v
  simp_all [getTranslation]

theorem getInverse_eq_of_mul_eq_one (a b : Mat) (e : a * b = 1) : getInverse a = b := by
  have hd : Matrix.det a ≠ 0 := by
    intro h0
    have := congrArg Matrix.det e
    rw [Matrix.det_mul, h0, zero_mul, Matrix.det_one] at this
    exact zero_ne_one this
  calc getInverse a = getInverse a * (a * b) := by rw [e, mul_one]
    _ = (getInverse a * a) * b := by rw [mul_assoc]
    _ = b := by rw [getInverse_mul_self a hd, one_mul]

theorem getInverse_translationMatrix (v : Vec3) :
    getInverse (translationMatrix v) = translationMatrix ⟨-v.x, -v.y, -v.z⟩ := by
  apply getInverse_eq_of_mul_eq_one
  rw [translationMatrix_mul]
  simp [translationMatrix_zero]

/-- The cached global matrices of the scene `root -> A -> B` after one update. -/
theorem sceneABu_globals :
    ((runOps exLib noHook opsABu).nodes 0).global_matrix = 1 ∧
    ((runOps exLib noHook opsABu).nodes 1).global_matrix = translationMatrix ⟨10, 0, 0⟩ ∧
    ((runOps exLib noHook opsABu).nodes 2).global_matrix = translationMatrix ⟨10, 5, 0⟩ := by
  simp [runOps, opsABu, opsAB, step, Op.target, Op.run, addChild, updateGlobalMatrix,
    RootNode.new, Heap.modify, Node.new, getInverse_one, rootId, setPosition, updateLocalMatrix,
    localMatrix_translation, RootNode.update, update_, noHook, translationMatrix_mul]

/-! ## C3: the direction of `getNodeToNodeTransform` -/

/-- What the code computes: `M = getNodeToNodeTransform(from, to)` times the global matrix
of `from` is the global matrix of `to`, so a point of the space of `to`, mapped by `M`, is
the same world point read in the space of `from`. -/
theorem getNodeToNodeTransform_mul_from (h : Heap) (src dst : Nat)
    (hs : Matrix.det (getGlobalMatrix h src) ≠ 0) :
    getNodeToNodeTransform h src dst * getGlobalMatrix h src = getGlobalMatrix h dst := by
  unfold getNodeToNodeTransform
  rw [mul_assoc, getInverse_mul_self _ hs, mul_one]

/-- C3, the code at the failing input: in the scene `root -> A -> B` after an update, with
`from = A` (global matrix the translation by (10,0,0)) and `to = root` (identity), the matrix
`M = getNodeToNodeTransform(A, root)` is the translation by (-10,0,0); the origin `p` of A
mapped by `M` and read in the root's space is the world point (-10,0,0), while `p` read in
A's space is the world point (10,0,0). -/
theorem C3_node_to_node_direction :
    getNodeToNodeTransform (runOps exLib noHook opsABu) 1 0 = translationMatrix ⟨-10, 0, 0⟩ ∧
    preMult (getGlobalMatrix (runOps exLib noHook opsABu) 0)
      (preMult (getNodeToNodeTransform (runOps exLib noHook opsABu) 1 0) ⟨0, 0, 0⟩)
      = ⟨-10, 0, 0⟩ ∧
    preMult (getGlobalMatrix (runOps exLib noHook opsABu) 1) ⟨0, 0, 0⟩ = ⟨10, 0, 0⟩ ∧
    preMult (getGlobalMatrix (runOps exLib noHook opsABu) 0)
      (preMult (getNodeToNodeTransform (runOps exLib noHook opsABu) 1 0) ⟨0, 0, 0⟩)
      ≠ preMult (getGlobalMatrix (runOps exLib noHook opsABu) 1) ⟨0, 0, 0⟩ := by
  obtain ⟨g0, g1, _⟩ := sceneABu_globals
  have hM : getNodeToNodeTransform (runOps exLib noHook opsABu) 1 0 =
      translationMatrix ⟨-10, 0, 0⟩ := by
    unfold getNodeToNodeTransform getGlobalMatrix
    rw [g0, g1, getInverse_translationMatrix, one_mul]
    simp
  simp only [hM, getGlobalMatrix, g0, g1]
  refine ⟨trivial, ?_, ?_, ?_⟩
  · simp [preMult, translationMatrix, Matrix.vecHead, Matrix.vecTail]
  · simp [preMult, translationMatrix, Matrix.vecHead, Matrix.vecTail]
  · simp [preMult, translationMatrix, Matrix.vecHead, Matrix.vecTail]
    norm_num

/-! ## C4: the two node-to-node transforms are inverse to each other -/

/-- C4: for two nodes whose cached global matrices are invertible,
`getNodeToNodeTransform(A, B) * getNodeToNodeTransform(B, A)` is the identity, and likewise
in the other order. -/
theorem C4_node_to_node_inverse (h : Heap) (A B : Nat)
    (hA : Matrix.det (getGlobalMatrix h A) ≠ 0) (hB : Matrix.det (getGlobalMatrix h B) ≠ 0) :
    getNodeToNodeTransform h A B * getNodeToNodeTransform h B A = 1 ∧
    getNodeToNodeTransform h B A * getNodeToNodeTransform h A B = 1 := by
  unfold getNodeToNodeTransform
  constructor
  · rw [mul_assoc, ← mul_assoc (getInverse _), getInverse_mul_self _ hA, one_mul,
      mul_getInverse_self _ hB]
  · rw [mul_assoc, ← mul_assoc (getInverse _), getInverse_mul_self _ hB, one_mul,
      mul_getInverse_self _ hA]

/-- C4 at the nodes A and B of the scene `root -> A -> B` after an update. -/
theorem C4_node_to_node_inverse_witness :
    Matrix.det (getGlobalMatrix (runOps exLib noHook opsABu) 1) ≠ 0 ∧
    Matrix.det (getGlobalMatrix (runOps exLib noHook opsABu) 2) ≠ 0 ∧
    getNodeToNodeTransform (runOps exLib noHook opsABu) 1 2 *
      getNodeToNodeTransform (runOps exLib noHook opsABu) 2 1 = 1 ∧
    getNodeToNodeTransform (runOps exLib noHook opsABu) 2 1 *
      getNodeToNodeTransform (runOps exLib noHook opsABu) 1 2 = 1 :=
  have hA : Matrix.det (getGlobalMatrix (runOps exLib noHook opsABu) 1) ≠ 0 := by
    unfold getGlobalMatrix
    rw [sceneABu_globals.2.1, translationMatrix_det]; exact one_ne_zero
  have hB : Matrix.det (getGlobalMatrix (runOps exLib noHook opsABu) 2) ≠ 0 := by
    unfold getGlobalMatrix
    rw [sceneABu_globals.2.2, translationMatrix_det]; exact one_ne_zero
  ⟨hA, hB, C4_node_to_node_inverse _ 1 2 hA hB⟩

/-! ## C5: the global matrix of the root -/

/-- The global matrix of the root is the identity on every reachable heap. -/
theorem reachable_root_global (L : OfLib) (hook : Hook) (hl : hook.Local) (h : Heap)
    (hr : Reachable L hook h) : (h.nodes rootId).global_matrix = 1 := by
  induction hr with
  | init => simp [RootNode.new, Node.new]
  | @step h h1 op r e ih =>
    have w := r.WF hl
    unfold step at e
    by_cases ht : op.target < h.next
    · rw [if_pos ht] at e
      have loc : ∀ (self : Nat) (f : Node → Node),
          (f (h.nodes self)).global_matrix = (h.nodes self).global_matrix →
          ((h.modify self f).nodes rootId).global_matrix = 1 := by
        intro self f hf
        by_cases hs : rootId = self
        · subst hs; rw [modify_nodes_self, hf, ih]
        · rw [modify_nodes_of_ne _ _ _ _ hs, ih]
      have glob : ∀ (self : Nat) (h2 : Heap) (f : Node → Node),
          h2.nodes rootId = h.nodes rootId →
          (f (h2.nodes self)).global_matrix = (h2.nodes self).global_matrix →
          ((h2.modify self f).nodes rootId).global_matrix = 1 := by
        intro self h2 f h2r hf
        by_cases hs : rootId = self
        · subst hs; rw [modify_nodes_self, hf, h2r, ih]
        · rw [modify_nodes_of_ne _ _ _ _ hs, h2r, ih]
      cases op with
      | setPosition self v => cases e; exact loc self _ rfl
      | setRotation self v => cases e; exact loc self _ rfl
      | setScale self v => cases e; exact loc self _ rfl
      | move self v => cases e; exact loc self _ rfl
      | rotate self angle axis => cases e; exact loc self _ rfl
      | removeChild self o => cases e; exact loc self _ rfl
      | clear self => cases e; exact loc self _ rfl
      | setGlobalPosition self v =>
        obtain ⟨h2, e2, _, _, r2, _⟩ := updateGlobalMatrix_spec h.next h self w ht ht
        simp only [Op.run, setGlobalPosition, e2] at e
        cases e
        exact glob self h2 _ r2 rfl
      | setGlobalRotation self v =>
        obtain ⟨h2, e2, _, _, r2, _⟩ := updateGlobalMatrix_spec h.next h self w ht ht
        simp only [Op.run, setGlobalRotation, e2] at e
        cases e
        exact glob self h2 _ r2 rfl
      | setGlobalScale self v =>
        obtain ⟨h2, e2, _, _, r2, _⟩ := updateGlobalMatrix_spec h.next h self w ht ht
        simp only [Op.run, setGlobalScale, e2] at e
        cases e
        exact glob self h2 _ r2 rfl
      | addChild self T name =>
        obtain ⟨h2, e2, _, r2, _⟩ := addChild_spec h self T name w ht
        simp only [Op.run, e2, Option.map_some', Option.some.injEq] at e
        subst e
        exact glob self h2 _ r2 rfl
      | update =>
        obtain ⟨h2, e2, _, r2, _⟩ := RootNode_update_spec hook hl h w
        simp only [Op.run] at e
        rw [e2] at e; cases e
        rw [r2]
    · rw [if_neg ht] at e; cases e

/-- C5: in every state reachable from a freshly constructed `RootNode` by public
operations (hooks changing only the local transform of their own node), local and global
setters called on the root itself included, the global matrix of the root is the identity. -/
theorem C5_root_global_identity (L : OfLib) (hook : Hook) (hl : hook.Local) (h : Heap)
    (hr : Reachable L hook h) : (h.nodes rootId).global_matrix = 1 :=
  reachable_root_global L hook hl h hr

/-- C5 after a sequence of calls that includes setters called on the root itself. -/
theorem C5_root_global_identity_witness :
    Hook.Local moveHook ∧ Reachable exLib moveHook (runOps exLib moveHook opsOnRoot) ∧
    ((runOps exLib moveHook opsOnRoot).nodes rootId).global_matrix = 1 :=
  ⟨moveHook_local, runOps_reachable _ _ _,
    C5_root_global_identity exLib moveHook moveHook_local _ (runOps_reachable _ _ _)⟩

/-! ## C6: the global-matrix equation between traversals -/

/-- C7: on a reachable heap, `removeChild(o)` on a node that has `o` among its children
leaves a children sequence without `o`, exactly one shorter, that is the old sequence with
the one entry `o` erased (so all other children stay, in their order); when `o` is not among
the children the sequence is unchanged; and `clear()` leaves size 0. -/
theorem C7_removeChild_clear (L : OfLib) (hook : Hook) (hl : hook.Local) (h : Heap)
    (hr : Reachable L hook h) (self o : Nat) (hs : self < h.next) :
    (o ∈ (h.nodes self).children →
      o ∉ ((removeChild h self o).nodes self).children ∧
      size (removeChild h self o) self + 1 = size h self ∧
      ((removeChild h self o).nodes self).children = (h.nodes self).children.erase o ∧
      ((removeChild h self o).nodes self).children.Sublist (h.nodes self).children ∧
      ∀ c, c ∈ (h.nodes self).children → c ≠ o →
        c ∈ ((removeChild h self o).nodes self).children) ∧
    (o ∉ (h.nodes self).children →
      ((removeChild h self o).nodes self).children = (h.nodes self).children) ∧
    size (clear h self) self = 0 := by
  have nd := (hr.WF hl).children_nodup self hs
  have e : ((removeChild h self o).nodes self).children =
      (h.nodes self).children.filter fun c => decide (c ≠ o) := by
    simp [removeChild]
  refine ⟨?_, ?_, ?_⟩
  · intro hm
    have he : (h.nodes self).children.erase o =
        (h.nodes self).children.filter fun c => decide (c ≠ o) := by
      rw [List.Nodup.erase_eq_filter nd]
      congr 1
      funext c
      by_cases hc : c = o <;> simp [hc, bne]
    refine ⟨?_, ?_, ?_, ?_, ?_⟩
    · rw [e]; simp
    · unfold size
      rw [e, ← he, List.length_erase_of_mem hm]
      have : 0 < (h.nodes self).children.length := List.length_pos_of_mem hm
      omega
    · rw [e, he]
    · rw [e]; exact List.filter_sublist _
    · intro c hc hne
      rw [e]
      exact List.mem_filter.2 ⟨hc, by simpa using hne⟩
  · intro hm
    rw [e]
    apply List.filter_eq_self.2
    intro c hc
    have : c ≠ o := fun x => hm (x ▸ hc)
    simpa using this
  · simp [size, clear]

/-- C7 at the root of the scene with children X, Y, X: removing the second child. -/
theorem C7_removeChild_clear_witness :
    Hook.Local noHook ∧ Reachable exLib noHook (runOps exLib noHook opsXYX) ∧
    0 < (runOps exLib noHook opsXYX).next ∧
    (2 ∈ ((runOps exLib noHook opsXYX).nodes 0).children →
      2 ∉ ((removeChild (runOps exLib noHook opsXYX) 0 2).nodes 0).children ∧
      size (removeChild (runOps exLib noHook opsXYX) 0 2) 0 + 1
        = size (runOps exLib noHook opsXYX) 0 ∧
      ((removeChild (runOps exLib noHook opsXYX) 0 2).nodes 0).children
        = ((runOps exLib noHook opsXYX).nodes 0).children.erase 2 ∧
      ((removeChild (runOps exLib noHook opsXYX) 0 2).nodes 0).children.Sublist
        ((runOps exLib noHook opsXYX).nodes 0).children ∧
      ∀ c, c ∈ ((runOps exLib noHook opsXYX).nodes 0).children → c ≠ 2 →
        c ∈ ((removeChild (runOps exLib noHook opsXYX) 0 2).nodes 0).children) ∧
    (2 ∉ ((runOps exLib noHook opsXYX).nodes 0).children →
      ((removeChild (runOps exLib noHook opsXYX) 0 2).nodes 0).children
        = ((runOps exLib noHook opsXYX).nodes 0).children) ∧
    size (clear (runOps exLib noHook opsXYX) 0) 0 = 0 :=
  have hn : 0 < (runOps exLib noHook opsXYX).next := (runOps_reachable exLib noHook
    opsXYX).WF noHook_local |>.next_pos
  ⟨noHook_local, runOps_reachable _ _ _, hn,
    C7_removeChild_clear exLib noHook noHook_local _ (runOps_reachable _ _ _) 0 2 hn⟩

/-- The children of the root in the scene X, Y, X. -/
theorem sceneXYX_children : ((runOps exLib noHook opsXYX).nodes 0).children = [1, 2, 3] := by
  simp [runOps, opsXYX, step, Op.target, Op.run, addChild, updateGlobalMatrix,
    RootNode.new, Heap.modify, Node.new, getInverse_one, rootId]

/-! ## C8: bounds-checked child access -/

/-- C8: `at(i)` fails with the out-of-range error exactly when `i` is not below the number
of children, and otherwise returns the `i`-th entry of the children sequence; it is a
function of the heap and leaves it as it is. -/
theorem C8_at_bounds (h : Heap) (self i : Nat) :
    (at_ h self i = Except.error Error.out_of_range ↔ size h self ≤ i) ∧
    (i < size h self ↔
      ∃ o, (h.nodes self).children.get? i = some o ∧ at_ h self i = Except.ok o) := by
  unfold at_ size
  cases e : (h.nodes self).children.get? i with
  | none =>
    have := List.get?_eq_none.1 e
    refine ⟨⟨fun _ => this, fun _ => rfl⟩, ⟨fun x => ?_, ?_⟩⟩
    · omega
    · rintro ⟨o, x, _⟩; cases x
  | some o =>
    have hi : i < (h.nodes self).children.length := by
      by_contra hc
      rw [List.get?_eq_none.2 (not_lt.1 hc)] at e
      cases e
    constructor
    · constructor
      · intro x; cases x
      · intro x; omega
    · exact ⟨fun _ => ⟨o, rfl, rfl⟩, fun _ => hi⟩

/-- C8 at the root of the scene with three children: `at(5)` fails, `at(1)` is the second
child. -/
theorem C8_at_bounds_witness :
    at_ (runOps exLib noHook opsXYX) 0 5 = Except.error Error.out_of_range ∧
    at_ (runOps exLib noHook opsXYX) 0 1 = Except.ok 2 := by
  refine ⟨(C8_at_bounds (runOps exLib noHook opsXYX) 0 5).1.2 ?_, ?_⟩
  · simp [size, sceneXYX_children]
  · simp [at_, sceneXYX_children]

/-! ## C9: `addChild` appends -/

/-- What `addChild` leaves at the allocated nodes: cached matrices may be refreshed, the
new child is appended to the children of `self`, everything else is as before. -/
theorem addChild_old (h : Heap) (self T : Nat) (name : String) (w : h.WF)
    (hs : self < h.next) :
    ∃ h1, addChild h self T name = some (h1, h.next) ∧ h1.WF ∧ h1.next = h.next + 1 ∧
      (h1.nodes h.next).name = name ∧
      (h1.nodes self).children = (h.nodes self).children ++ [h.next] ∧
      (∀ j, j < h.next → (h1.nodes j).name = (h.nodes j).name) ∧
      (∀ j, j < h.next → j ≠ self → (h1.nodes j).children = (h.nodes j).children) := by
  obtain ⟨h2, e2, c2, _, _, _⟩ := addChild_spec h self T name w hs
  have hne : h.next ≠ self := Nat.ne_of_gt hs
  have old : ∀ j, j < h.next → (allocChild h self T name).nodes j = h.nodes j := by
    intro j hj
    have : j ≠ h.next := Nat.ne_of_lt hj
    simp [allocChild, Function.update_noteq this]
  have nm : ∀ j, (h2.nodes j).name = ((allocChild h self T name).nodes j).name := by
    intro j
    obtain ⟨g, i, e⟩ := c2.2 j
    rw [e]
  have ch : ∀ j, (h2.nodes j).children = ((allocChild h self T name).nodes j).children :=
    skeleton_children c2.skeleton
  refine ⟨_, e2, addChild_WF h self T name w hs _ _ e2, ?_, ?_, ?_, ?_, ?_⟩
  · simp [c2.1, allocChild]
  · rw [modify_nodes_of_ne _ _ _ _ hne, nm]
    simp [allocChild]
  · rw [modify_nodes_self]
    simp only
    rw [ch, old self hs]
  · intro j hj
    by_cases hjs : j = self
    · subst hjs
      rw [modify_nodes_self]
      simp only
      rw [nm, old j hj]
    · rw [modify_nodes_of_ne _ _ _ _ hjs, nm, old j hj]
  · intro j hj hjs
    rw [modify_nodes_of_ne _ _ _ _ hjs, ch, old j hj]

theorem at__append_left (h h1 : Heap) (self : Nat) (cs : List Nat)
    (e : (h1.nodes self).children = (h.nodes self).children ++ cs) (i : Nat)
    (hi : i < size h self) : at_ h1 self i = at_ h self i := by
  unfold at_
  unfold size at hi
  rw [e]
  simp only [List.get?_eq_getElem?, List.getElem?_append_left hi]

theorem at__append_right (h h1 : Heap) (self : Nat) (cs : List Nat)
    (e : (h1.nodes self).children = (h.nodes self).children ++ cs) (i c : Nat)
    (hc : cs.get? i = some c) : at_ h1 self (size h self + i) = Except.ok c := by
  unfold at_ size
  rw [e]
  simp only [List.get?_eq_getElem?] at hc ⊢
  rw [List.getElem?_append_right (Nat.le_add_right _ _), Nat.add_sub_cancel_left, hc]

/-- A sequence of `addChild` calls on a node returns, appends the returned children in call
order, and gives each the name passed for it. -/
theorem addChildren_spec : ∀ (names : List (Nat × String)) (h : Heap) (self : Nat), h.WF →
    self < h.next →
    ∃ h1 cs, addChildren h self names = some (h1, cs) ∧ h1.WF ∧ h.next ≤ h1.next ∧
      (h1.nodes self).children = (h.nodes self).children ++ cs ∧
      cs.map (getName h1) = names.map Prod.snd ∧
      (∀ c ∈ cs, h.next ≤ c) ∧
      (∀ j, j < h.next → (h1.nodes j).name = (h.nodes j).name) := by
  intro names
  induction names with
  | nil =>
    intro h self w _
    exact ⟨h, [], rfl, w, le_refl _, by simp, rfl, by simp, fun _ _ => rfl⟩
  | cons x rest ih =>
    intro h self w hs
    obtain ⟨T, name⟩ := x
    obtain ⟨h1, e1, w1, n1, nm1, ch1, old1, _⟩ := addChild_old h self T name w hs
    obtain ⟨h2, cs, e2, w2, n2, ch2, nm2, lo2, old2⟩ := ih h1 self w1 (by omega)
    refine ⟨h2, h.next :: cs, ?_, w2, by omega, ?_, ?_, ?_, ?_⟩
    · simp [addChildren, e1, e2]
    · rw [ch2, ch1]; simp
    · simp only [List.map_cons, nm2]
      congr 1
      unfold getName
      rw [old2 h.next (by omega), nm1]
    · intro c hc
      rcases List.mem_cons.1 hc with e | hc
      · omega
      · have := lo2 c hc; omega
    · intro j hj
      rw [old2 j (by omega), old1 j hj]

/-- C9: on a reachable heap `addChild(s)` on a node with `n` children returns a new child
`c`; afterwards `size() = n + 1`, `at(n)` is `c`, the name of `c` is `s`, and `at(i)` for
`i < n` is as before.  Hence a sequence of `addChild` calls returns children `cs` such that
the `i`-th of them is at index `n + i` and has the `i`-th name. -/
theorem C9_addChild_appends (L : OfLib) (hook : Hook) (hl : hook.Local) (h : Heap)
    (hr : Reachable L hook h) (self : Nat) (hs : self < h.next) :
    (∀ (T : Nat) (s : String), ∃ h1 c, addChild h self T s = some (h1, c) ∧
      size h1 self = size h self + 1 ∧
      at_ h1 self (size h self) = Except.ok c ∧
      getName h1 c = s ∧
      ∀ i, i < size h self → at_ h1 self i = at_ h self i) ∧
    (∀ (names : List (Nat × String)), ∃ h1 cs, addChildren h self names = some (h1, cs) ∧
      cs.length = names.length ∧
      size h1 self = size h self + names.length ∧
      (∀ i, i < size h self → at_ h1 self i = at_ h self i) ∧
      ∀ i c, cs.get? i = some c →
        at_ h1 self (size h self + i) = Except.ok c ∧
        some (getName h1 c) = (names.get? i).map Prod.snd) := by
  have w := hr.WF hl
  constructor
  · intro T s
    obtain ⟨h1, e1, _, _, nm1, ch1, _, _⟩ := addChild_old h self T s w hs
    refine ⟨h1, h.next, e1, ?_, ?_, nm1, ?_⟩
    · simp [size, ch1]
    · simpa using at__append_right h h1 self [h.next] ch1 0 h.next rfl
    · intro i hi
      exact at__append_left h h1 self _ ch1 i hi
  · intro names
    obtain ⟨h1, cs, e1, _, _, ch1, nm1, _, _⟩ := addChildren_spec names h self w hs
    have len : cs.length = names.length := by
      have := congrArg List.length nm1
      simpa using this
    refine ⟨h1, cs, e1, len, ?_, ?_, ?_⟩
    · simp [size, ch1, len]
    · intro i hi
      exact at__append_left h h1 self _ ch1 i hi
    · intro i c hc
      refine ⟨at__append_right h h1 self cs ch1 i c hc, ?_⟩
      have := congrArg (fun l => l.get? i) nm1
      simp only [List.get?_eq_getElem?, List.getElem?_map] at this hc ⊢
      rw [hc] at this
      simp only [Option.map_some'] at this
      exact this

/-- C9 at the root of the scene with children X, Y, X, adding two more children. -/
theorem C9_addChild_appends_witness :
    Hook.Local noHook ∧ Reachable exLib noHook (runOps exLib noHook opsXYX) ∧
    0 < (runOps exLib noHook opsXYX).next ∧
    ∃ h1 cs, addChildren (runOps exLib noHook opsXYX) 0 [(1, "P"), (2, "Q")] = some (h1, cs) ∧
      cs.length = 2 ∧
      size h1 0 = size (runOps exLib noHook opsXYX) 0 + 2 ∧
      (∀ i, i < size (runOps exLib noHook opsXYX) 0 →
        at_ h1 0 i = at_ (runOps exLib noHook opsXYX) 0 i) ∧
      ∀ i c, cs.get? i = some c →
        at_ h1 0 (size (runOps exLib noHook opsXYX) 0 + i) = Except.ok c ∧
        some (getName h1 c) = ([(1, "P"), (2, "Q")].get? i).map Prod.snd :=
  have hn : 0 < (runOps exLib noHook opsXYX).next := (runOps_reachable exLib noHook
    opsXYX).WF noHook_local |>.next_pos
  ⟨noHook_local, runOps_reachable _ _ _, hn,
    (C9_addChild_appends exLib noHook noHook_local _ (runOps_reachable _ _ _) 0 hn).2
      [(1, "P"), (2, "Q")]⟩

/-! ## C10: non-recursive `find` -/

/-- The loop of `find_children` without recursion appends the matching children, in
order. -/
theorem find_loop_flat (name : String) (fuel : Nat) (h : Heap) :
    ∀ (cs out : List Nat),
      cs.foldlM (fun out child =>
        if false = true then
          find_children name false fuel h child
            (if getName h child = name then out ++ [child] else out)
        else some (if getName h child = name then out ++ [child] else out)) out
      = some (out ++ cs.filter fun c => decide (getName h c = name)) := by
  intro cs
  induction cs with
  | nil => intro out; simp
  | cons c rest ih =>
    intro out
    simp only [List.foldlM_cons, Bool.false_eq_true, if_false, Option.bind_eq_bind,
      Option.some_bind]
    have := ih (if getName h c = name then out ++ [c] else out)
    simp only [Bool.false_eq_true, if_false] at this
    rw [this]
    by_cases hc : getName h c = name
    · simp [hc, List.filter_cons]
    · simp [hc, List.filter_cons]

/-- C10: on a reachable heap, `find(name, false)` returns (no error), and the result is
the subsequence of the direct children whose name equals `name`, in children order; each
entry is a direct child, whose parent is the node searched, and is not the node itself; the
result is empty when no direct child has that name. -/
theorem C10_find_direct (L : OfLib) (hook : Hook) (hl : hook.Local) (h : Heap)
    (hr : Reachable L hook h) (self : Nat) (hs : self < h.next) (name : String) :
    ∃ r, find h self name false = some r ∧
      r = (h.nodes self).children.filter (fun c => decide (getName h c = name)) ∧
      r.Sublist (h.nodes self).children ∧
      (∀ c, c ∈ r ↔ c ∈ (h.nodes self).children ∧ getName h c = name) ∧
      (∀ c, c ∈ r → c ≠ self ∧ getParent h c = some self) ∧
      ((∀ c, c ∈ (h.nodes self).children → getName h c ≠ name) → r = []) := by
  have w := hr.WF hl
  obtain ⟨k, hk⟩ : ∃ k, h.next = k + 1 := ⟨h.next - 1, by omega⟩
  refine ⟨_, ?_, rfl, List.filter_sublist _, ?_, ?_, ?_⟩
  · unfold find
    rw [hk]
    unfold find_children
    rw [find_loop_flat name k h (h.nodes self).children []]
    simp
  · intro c
    simp [List.mem_filter]
  · intro c hc
    have hm := (List.mem_filter.1 hc).1
    have := w.lt_of_child hs hm
    exact ⟨by omega, (w.child_parent self c hs hm).1⟩
  · intro hno
    apply List.filter_eq_nil_iff.2
    intro c hc
    simpa using hno c hc

/-- C10 at the root of the scene with children X, Y, X: `find("X")` is the first and the
third child, `find("Z")` is empty. -/
theorem C10_find_direct_witness :
    find (runOps exLib noHook opsXYX) 0 "X" false = some [1, 3] ∧
    find (runOps exLib noHook opsXYX) 0 "Z" false = some [] := by
  have hn : 0 < (runOps exLib noHook opsXYX).next := (runOps_reachable exLib noHook
    opsXYX).WF noHook_local |>.next_pos
  have names : getName (runOps exLib noHook opsXYX) 1 = "X" ∧
      getName (runOps exLib noHook opsXYX) 2 = "Y" ∧
      getName (runOps exLib noHook opsXYX) 3 = "X" := by
    simp [getName, runOps, opsXYX, step, Op.target, Op.run, addChild, updateGlobalMatrix,
      RootNode.new, Heap.modify, Node.new, getInverse_one, rootId]
  constructor
  · obtain ⟨r, e, hr, _⟩ := C10_find_direct exLib noHook noHook_local _
      (runOps_reachable exLib noHook opsXYX) 0 hn "X"
    rw [e, hr, sceneXYX_children]
    simp [List.filter, names.1, names.2.1, names.2.2]
  · obtain ⟨r, e, hr, _⟩ := C10_find_direct exLib noHook noHook_local _
      (runOps_reachable exLib noHook opsXYX) 0 hn "Z"
    rw [e, hr, sceneXYX_children]
    simp [List.filter, names.1, names.2.1, names.2.2]

/-! ## C11: recursive `find` is the pre-order listing, filtered -/

theorem pair_sublist_flatMap {α β : Type} (f : α → List β) :
    ∀ (l : List α) (c1 c2 : α) (y z : β), [c1, c2].Sublist l → y ∈ f c1 → z ∈ f c2 →
      [y, z].Sublist (l.flatMap f) := by
  intro l
  induction l with
  | nil => intro c1 c2 y z s; cases s
  | cons a l ih =>
    intro c1 c2 y z s hy hz
    rw [List.flatMap_cons]
    cases s with
    | cons _ s1 => exact (ih c1 c2 y z s1 hy hz).trans (List.sublist_append_right _ _)
    | cons₂ _ s1 =>
      have hc2 : c2 ∈ l := List.singleton_sublist.1 s1
      have hz1 : [z].Sublist (l.flatMap f) :=
        List.singleton_sublist.2 (List.mem_flatMap.2 ⟨c2, hc2, hz⟩)
      have hy1 : [y].Sublist (f a) := List.singleton_sublist.2 hy
      exact List.Sublist.append hy1 hz1

theorem sublist_flatMap_of_mem {α β : Type} (f : α → List β) :
    ∀ (l : List α) (c : α), c ∈ l → (f c).Sublist (l.flatMap f) := by
  intro l
  induction l with
  | nil => intro c hc; cases hc
  | cons a l ih =>
    intro c hc
    rw [List.flatMap_cons]
    rcases List.mem_cons.1 hc with e | hc
    · subst e; exact List.sublist_append_left _ _
    · exact (ih c hc).trans (List.sublist_append_right _ _)

theorem Desc.desc_trans {h : Heap} {a b c : Nat} (x : Desc h a b) (y : Desc h b c) :
    Desc h a c := by
  induction y with
  | refl => exact x
  | child _ hm ih => exact Desc.child ih hm

/-- The loop of the recursive `find_children` over a list of nodes, given that the recursive
call on each of them appends the filtered pre-order listing below it. -/
theorem find_loop_rec (name : String) (fuel : Nat) (h : Heap)
    (IH : ∀ c out, c < h.next → h.next ≤ fuel + c →
      find_children name true fuel h c out =
        some (out ++ (preorder fuel h c).filter fun x => decide (getName h x = name))) :
    ∀ (cs out : List Nat), (∀ c ∈ cs, c < h.next ∧ h.next ≤ fuel + c) →
      cs.foldlM (fun out child =>
        if true = true then
          find_children name true fuel h child
            (if getName h child = name then out ++ [child] else out)
        else some (if getName h child = name then out ++ [child] else out)) out
      = some (out ++ (cs.flatMap fun c => c :: preorder fuel h c).filter
          fun x => decide (getName h x = name)) := by
  intro cs
  induction cs with
  | nil => intro out _; simp
  | cons c rest ih =>
    intro out hcs
    have hc := hcs c (List.mem_cons_self _ _)
    simp only [List.foldlM_cons, if_true, Option.bind_eq_bind]
    rw [IH c _ hc.1 hc.2]
    simp only [Option.some_bind]
    have := ih (((if getName h c = name then out ++ [c] else out)) ++
      (preorder fuel h c).filter fun x => decide (getName h x = name))
      (fun c1 hc1 => hcs c1 (List.mem_cons_of_mem _ hc1))
    simp only [if_true] at this
    rw [this]
    by_cases hn : getName h c = name
    · simp [hn, List.filter_cons, List.flatMap_cons]
    · simp [hn, List.filter_cons, List.flatMap_cons]

/-- With enough fuel the recursive `find_children` returns, and appends to `out` the
pre-order listing of the proper descendants of the target, filtered by the name. -/
theorem find_children_rec (name : String) (h : Heap) (w : h.WF) :
    ∀ (fuel t : Nat) (out : List Nat), t < h.next → h.next ≤ fuel + t →
      find_children name true fuel h t out =
        some (out ++ (preorder fuel h t).filter fun x => decide (getName h x = name)) := by
  intro fuel
  induction fuel with
  | zero => intro t out ht hf; omega
  | succ fuel ih =>
    intro t out ht hf
    unfold find_children preorder
    apply find_loop_rec name fuel h (fun c out hc hfc => ih c out hc hfc)
    intro c hc
    have := w.lt_of_child ht hc
    exact ⟨(w.child_parent t c ht hc).2, by omega⟩

/-- With enough fuel the pre-order listing below `t` holds exactly the proper descendants
of `t`. -/
theorem mem_preorder (h : Heap) (w : h.WF) :
    ∀ (fuel t x : Nat), t < h.next → h.next ≤ fuel + t →
      (x ∈ preorder fuel h t ↔ ∃ c, c ∈ (h.nodes t).children ∧ Desc h c x) := by
  intro fuel
  induction fuel with
  | zero => intro t x ht hf; omega
  | succ fuel ih =>
    intro t x ht hf
    unfold preorder
    rw [List.mem_flatMap]
    have step : ∀ c, c ∈ (h.nodes t).children → (x ∈ c :: preorder fuel h c ↔ Desc h c x) := by
      intro c hc
      have hcn := (w.child_parent t c ht hc).2
      have hlt := w.lt_of_child ht hc
      rw [List.mem_cons, ih c x hcn (by omega)]
      constructor
      · rintro (e | ⟨d, hd, dx⟩)
        · subst e; exact Desc.refl
        · exact (Desc.child Desc.refl hd).desc_trans dx
      · intro dx
        rcases dx.head with e | r
        · exact Or.inl e
        · exact Or.inr r
    constructor
    · rintro ⟨c, hc, hx⟩; exact ⟨c, hc, (step c hc).1 hx⟩
    · rintro ⟨c, hc, hx⟩; exact ⟨c, hc, (step c hc).2 hx⟩

theorem Desc.desc_le {h : Heap} (w : h.WF) {a x : Nat} (ha : a < h.next) (d : Desc h a x) : a ≤ x :=
  Anc.le w (Desc.anc w ha d).1 (Desc.anc w ha d).2

/-- The proper descendants of `t` are the nodes below its children. -/
theorem proper_desc_iff (h : Heap) (w : h.WF) (t x : Nat) (ht : t < h.next) :
    (∃ c, c ∈ (h.nodes t).children ∧ Desc h c x) ↔ Desc h t x ∧ x ≠ t := by
  constructor
  · rintro ⟨c, hc, dx⟩
    have hlt := w.lt_of_child ht hc
    have := Desc.desc_le w (w.child_parent t c ht hc).2 dx
    exact ⟨(Desc.child Desc.refl hc).desc_trans dx, by omega⟩
  · rintro ⟨dx, hne⟩
    rcases dx.head with e | r
    · exact absurd e hne
    · exact r

theorem mem_self_preorder (h : Heap) (w : h.WF) (fuel c x : Nat) (hc : c < h.next)
    (hf : h.next ≤ fuel + c) : x ∈ c :: preorder fuel h c ↔ Desc h c x := by
  rw [List.mem_cons, mem_preorder h w fuel c x hc hf, proper_desc_iff h w c x hc]
  constructor
  · rintro (e | ⟨d, _⟩)
    · subst e; exact Desc.refl
    · exact d
  · intro d
    by_cases e : x = c
    · exact Or.inl e
    · exact Or.inr ⟨d, e⟩

theorem nodup_preorder (h : Heap) (w : h.WF) :
    ∀ (fuel t : Nat), t < h.next → h.next ≤ fuel + t → (preorder fuel h t).Nodup := by
  intro fuel
  induction fuel with
  | zero => intro t ht hf; omega
  | succ fuel ih =>
    intro t ht hf
    unfold preorder
    rw [List.nodup_flatMap]
    have hch : ∀ c, c ∈ (h.nodes t).children → c < h.next ∧ h.next ≤ fuel + c := by
      intro c hc
      have := w.lt_of_child ht hc
      exact ⟨(w.child_parent t c ht hc).2, by omega⟩
    constructor
    · intro c hc
      obtain ⟨hcn, hcf⟩ := hch c hc
      refine List.nodup_cons.2 ⟨?_, ih c hcn hcf⟩
      intro hm
      obtain ⟨d, hd, dx⟩ := (mem_preorder h w fuel c c hcn hcf).1 hm
      have h1 := w.lt_of_child hcn hd
      have h2 := Desc.desc_le w (w.child_parent c d hcn hd).2 dx
      omega
    · apply (w.children_nodup t ht).pairwise_of_forall_ne
      intro c1 hc1 c2 hc2 hne
      obtain ⟨hn1, hf1⟩ := hch c1 hc1
      obtain ⟨hn2, hf2⟩ := hch c2 hc2
      show List.Disjoint (c1 :: preorder fuel h c1) (c2 :: preorder fuel h c2)
      intro x hx1 hx2
      have d1 := (mem_self_preorder h w fuel c1 x hn1 hf1).1 hx1
      have d2 := (mem_self_preorder h w fuel c2 x hn2 hf2).1 hx2
      exact Anc.siblings w (w.child_parent t c1 ht hc1).1 (w.child_parent t c2 ht hc2).1
        hn1 hn2 hne (Desc.anc w hn1 d1).1 (Desc.anc w hn2 d2).1

/-- In the pre-order listing a node comes before each of its proper descendants. -/
theorem preorder_parent_first (h : Heap) (w : h.WF) :
    ∀ (fuel t x y : Nat), t < h.next → h.next ≤ fuel + t → x ∈ preorder fuel h t →
      Desc h x y → x ≠ y → [x, y].Sublist (preorder fuel h t) := by
  intro fuel
  induction fuel with
  | zero => intro t x y ht hf; omega
  | succ fuel ih =>
    intro t x y ht hf hx dxy hne
    unfold preorder at hx ⊢
    obtain ⟨c, hc, hxc⟩ := List.mem_flatMap.1 hx
    have hlt := w.lt_of_child ht hc
    have hcn := (w.child_parent t c ht hc).2
    have hcf : h.next ≤ fuel + c := by omega
    refine List.Sublist.trans ?_
      (sublist_flatMap_of_mem (fun c => c :: preorder fuel h c) _ c hc)
    rcases List.mem_cons.1 hxc with e | hxp
    · subst e
      have hy : y ∈ preorder fuel h x :=
        (mem_preorder h w fuel x y hcn hcf).2
          ((proper_desc_iff h w x y hcn).2 ⟨dxy, Ne.symm hne⟩)
      exact List.Sublist.cons₂ x (List.singleton_sublist.2 hy)
    · exact (ih c x y hcn hcf hxp dxy hne).trans (List.sublist_cons_self _ _)

/-- In the pre-order listing the nodes below an earlier child come before the nodes below
a later child. -/
theorem preorder_branch_order (h : Heap) (w : h.WF) (t c1 c2 y z : Nat) (ht : t < h.next)
    (s : [c1, c2].Sublist (h.nodes t).children) (dy : Desc h c1 y) (dz : Desc h c2 z) :
    [y, z].Sublist (preorder h.next h t) := by
  obtain ⟨k, hk⟩ : ∃ k, h.next = k + 1 := ⟨h.next - 1, by omega⟩
  rw [hk]
  unfold preorder
  have hch : ∀ c, c ∈ (h.nodes t).children → c < h.next ∧ h.next ≤ k + c := by
    intro c hc
    have := w.lt_of_child ht hc
    exact ⟨(w.child_parent t c ht hc).2, by omega⟩
  have m1 : c1 ∈ (h.nodes t).children := s.subset (by simp)
  have m2 : c2 ∈ (h.nodes t).children := s.subset (by simp)
  exact pair_sublist_flatMap (fun c => c :: preorder k h c) _ c1 c2 y z s
    ((mem_self_preorder h w k c1 y (hch c1 m1).1 (hch c1 m1).2).2 dy)
    ((mem_self_preorder h w k c2 z (hch c2 m2).1 (hch c2 m2).2).2 dz)

/-- The tree `root -> [P -> Q -> X, X]`: children sequences and names. -/
theorem sceneDeep_shape :
    ((runOps exLib noHook opsDeep).nodes 0).children = [1, 4] ∧
    ((runOps exLib noHook opsDeep).nodes 1).children = [2] ∧
    ((runOps exLib noHook opsDeep).nodes 2).children = [3] ∧
    ((runOps exLib noHook opsDeep).nodes 3).children = [] ∧
    ((runOps exLib noHook opsDeep).nodes 4).children = [] ∧
    getName (runOps exLib noHook opsDeep) 1 = "P" ∧
    getName (runOps exLib noHook opsDeep) 2 = "Q" ∧
    getName (runOps exLib noHook opsDeep) 3 = "X" ∧
    getName (runOps exLib noHook opsDeep) 4 = "X" ∧
    (runOps exLib noHook opsDeep).next = 5 := by
  simp [getName, runOps, opsDeep, step, Op.target, Op.run, addChild, updateGlobalMatrix,
    RootNode.new, Heap.modify, Node.new, getInverse_one, rootId]

/-- The recursive `find("X")` from the root of `root -> [P -> Q -> X, X]`. -/
theorem sceneDeep_find : find (runOps exLib noHook opsDeep) 0 "X" true = some [3, 4] := by
  obtain ⟨c0, c1, c2, c3, c4, n1, n2, n3, n4, nx⟩ := sceneDeep_shape
  simp [find, find_children, nx, c0, c1, c2, c3, c4, n1, n2, n3, n4]

/-- C11: on a reachable heap the recursive `find(name, true)` returns the pre-order
depth-first listing of the proper descendants of the node, filtered to the nodes whose name
is `name`; the listing holds exactly the proper descendants, each once, so every matching
descendant occurs exactly once in the result; and a matching node occurs before each of its
own matching descendants. -/
theorem C11_find_recursive_preorder (L : OfLib) (hook : Hook) (hl : hook.Local) (h : Heap)
    (hr : Reachable L hook h) (self : Nat) (hs : self < h.next) (name : String) :
    ∃ r, find h self name true = some r ∧
      r = (preorder h.next h self).filter (fun x => decide (getName h x = name)) ∧
      (∀ x, x ∈ preorder h.next h self ↔ Desc h self x ∧ x ≠ self) ∧
      (preorder h.next h self).Nodup ∧
      (∀ x, x ∈ r ↔ (Desc h self x ∧ x ≠ self) ∧ getName h x = name) ∧
      (∀ x, Desc h self x → x ≠ self → getName h x = name → r.count x = 1) ∧
      (∀ x y, x ∈ r → y ∈ r → Desc h x y → x ≠ y → [x, y].Sublist r) := by
  have w := hr.WF hl
  have hf : h.next ≤ h.next + self := Nat.le_add_right _ _
  have hmem : ∀ x, x ∈ preorder h.next h self ↔ Desc h self x ∧ x ≠ self := by
    intro x
    rw [mem_preorder h w h.next self x hs hf, proper_desc_iff h w self x hs]
  have hnd := nodup_preorder h w h.next self hs hf
  have hrm : ∀ x, x ∈ (preorder h.next h self).filter (fun x => decide (getName h x = name)) ↔
      (Desc h self x ∧ x ≠ self) ∧ getName h x = name := by
    intro x
    rw [List.mem_filter, hmem]
    simp
  refine ⟨_, ?_, rfl, hmem, hnd, hrm, ?_, ?_⟩
  · unfold find
    rw [find_children_rec name h w h.next self [] hs hf]
    simp
  · intro x dx hne hn
    exact List.count_eq_one_of_mem (hnd.filter _) ((hrm x).2 ⟨⟨dx, hne⟩, hn⟩)
  · intro x y hx hy dxy hne
    have s := preorder_parent_first h w h.next self x y hs hf (List.mem_filter.1 hx).1 dxy hne
    have s2 := s.filter (fun x => decide (getName h x = name))
    have ex := (List.mem_filter.1 hx).2
    have ey := (List.mem_filter.1 hy).2
    simpa [List.filter_cons, ex, ey] using s2

/-- C11 at the root of `root -> [P -> Q -> X, X]`: the result of `find("X", true)` is the
node at depth 3 followed by the node at depth 1, each once. -/
theorem C11_find_recursive_preorder_witness :
    Hook.Local noHook ∧ Reachable exLib noHook (runOps exLib noHook opsDeep) ∧
    0 < (runOps exLib noHook opsDeep).next ∧
    find (runOps exLib noHook opsDeep) 0 "X" true = some [3, 4] ∧
    [3, 4] = (preorder (runOps exLib noHook opsDeep).next (runOps exLib noHook opsDeep) 0).filter
      (fun x => decide (getName (runOps exLib noHook opsDeep) x = "X")) := by
  have hr := runOps_reachable exLib noHook opsDeep
  have hn : 0 < (runOps exLib noHook opsDeep).next := (hr.WF noHook_local).next_pos
  obtain ⟨r, e, er, _⟩ := C11_find_recursive_preorder exLib noHook noHook_local _ hr 0 hn "X"
  rw [sceneDeep_find] at e
  cases e
  exact ⟨noHook_local, hr, hn, sceneDeep_find, er⟩

/-! ## C12: children are not listed before all grandchildren -/

/-- C12 refuted as stated: in the tree `root -> [P -> Q -> X, X]` node 4 is a child of the
root named X (depth 1), node 3 is named X at depth 3 (below P and Q), and the recursive
`find("X")` on the root lists node 3 before node 4. -/
theorem C12_counterexample :
    4 ∈ ((runOps exLib noHook opsDeep).nodes 0).children ∧
    getName (runOps exLib noHook opsDeep) 4 = "X" ∧
    1 ∈ ((runOps exLib noHook opsDeep).nodes 0).children ∧
    2 ∈ ((runOps exLib noHook opsDeep).nodes 1).children ∧
    3 ∈ ((runOps exLib noHook opsDeep).nodes 2).children ∧
    getName (runOps exLib noHook opsDeep) 3 = "X" ∧
    find (runOps exLib noHook opsDeep) 0 "X" true = some [3, 4] ∧
    ¬ [4, 3].Sublist [3, 4] := by
  obtain ⟨c0, c1, c2, _, _, _, _, n3, n4, _⟩ := sceneDeep_shape
  refine ⟨by rw [c0]; simp, n4, by rw [c0]; simp, by rw [c1]; simp, by rw [c2]; simp, n3,
    sceneDeep_find, by decide⟩

/-- C12, as the code has it: the recursive `find` visits each child followed by that
child's whole subtree.  A matching child comes before every matching node below it; and of
two matching nodes that lie in the branches of two different children (the children
themselves included), the one in the branch of the earlier child comes first, whatever the
depths are. -/
theorem C12_find_branch_order (L : OfLib) (hook : Hook) (hl : hook.Local) (h : Heap)
    (hr : Reachable L hook h) (self : Nat) (hs : self < h.next) (name : String) :
    ∃ r, find h self name true = some r ∧
      (∀ c z, c ∈ (h.nodes self).children → Desc h c z → c ≠ z →
        getName h c = name → getName h z = name → [c, z].Sublist r) ∧
      (∀ c1 c2 y z, [c1, c2].Sublist (h.nodes self).children → Desc h c1 y → Desc h c2 z →
        getName h y = name → getName h z = name → [y, z].Sublist r) := by
  have w := hr.WF hl
  have hf : h.next ≤ h.next + self := Nat.le_add_right _ _
  refine ⟨(preorder h.next h self).filter (fun x => decide (getName h x = name)), ?_, ?_, ?_⟩
  · unfold find
    rw [find_children_rec name h w h.next self [] hs hf]
    simp
  · intro c z hc dz hne nc nz
    have hm : c ∈ preorder h.next h self :=
      (mem_preorder h w h.next self c hs hf).2 ⟨c, hc, Desc.refl⟩
    have s := (preorder_parent_first h w h.next self c z hs hf hm dz hne).filter
      (fun x => decide (getName h x = name))
    simpa [List.filter_cons, nc, nz] using s
  · intro c1 c2 y z s dy dz ny nz
    have s2 := (preorder_branch_order h w self c1 c2 y z hs s dy dz).filter
      (fun x => decide (getName h x = name))
    simpa [List.filter_cons, ny, nz] using s2

/-- C12 (as the code has it) at the root of `root -> [P -> Q -> X, X]`: node 3, below the
first child, comes before node 4, the second child. -/
theorem C12_find_branch_order_witness :
    Hook.Local noHook ∧ Reachable exLib noHook (runOps exLib noHook opsDeep) ∧
    0 < (runOps exLib noHook opsDeep).next ∧
    ∃ r, find (runOps exLib noHook opsDeep) 0 "X" true = some r ∧ [3, 4].Sublist r := by
  have hr := runOps_reachable exLib noHook opsDeep
  have hn : 0 < (runOps exLib noHook opsDeep).next := (hr.WF noHook_local).next_pos
  obtain ⟨c0, c1, c2, _, _, _, _, n3, n4, _⟩ := sceneDeep_shape
  obtain ⟨r, e, _, ord⟩ := C12_find_branch_order exLib noHook noHook_local _ hr 0 hn "X"
  have d2 : Desc (runOps exLib noHook opsDeep) 1 2 := Desc.child Desc.refl (by rw [c1]; simp)
  have d3 : Desc (runOps exLib noHook opsDeep) 1 3 := Desc.child d2 (by rw [c2]; simp)
  exact ⟨noHook_local, hr, hn, r, e, ord 1 4 3 4 (by rw [c0]) d3 Desc.refl n3 n4⟩

/-! ## The update traversal with no-op hooks -/

theorem cacheOnly_modify (h : Heap) (self : Nat) (f : Node → Node)
    (hf : ∀ n, ∃ (g i : Mat), f n = { n with global_matrix := g, parent_global_matrix_inv := i }) :
    CacheOnly h (h.modify self f) := by
  refine ⟨rfl, fun j => ?_⟩
  by_cases hj : j = self
  · subst hj
    rw [modify_nodes_self]
    exact hf _
  · rw [modify_nodes_of_ne _ _ _ _ hj]
    exact (CacheOnly.refl h).2 j

/-- The loop of `update_` with no-op hooks changes cached matrices only, and only at nodes
below the nodes it is run on. -/
theorem update_loop_noHook (fuel self : Nat)
    (IH : ∀ (h : Heap) (c src : Nat) (h1 : Heap), update_ noHook fuel h c src = some h1 →
      CacheOnly h h1 ∧ ∀ j, ¬ Desc h c j → h1.nodes j = h.nodes j) :
    ∀ (cs : List Nat) (h0 h1 : Heap),
      cs.foldlM (fun acc o => update_ noHook fuel acc o self) h0 = some h1 →
      CacheOnly h0 h1 ∧ ∀ j, (∀ c ∈ cs, ¬ Desc h0 c j) → h1.nodes j = h0.nodes j := by
  intro cs
  induction cs with
  | nil =>
    intro h0 h1 e
    simp only [List.foldlM_nil] at e
    cases e
    exact ⟨CacheOnly.refl _, fun _ _ => rfl⟩
  | cons c rest ih =>
    intro h0 h1 e
    simp only [List.foldlM_cons, Option.bind_eq_bind] at e
    cases em : update_ noHook fuel h0 c self with
    | none => rw [em] at e; cases e
    | some hm =>
      rw [em] at e
      simp only [Option.some_bind] at e
      obtain ⟨c1, f1⟩ := IH h0 c self hm em
      obtain ⟨c2, f2⟩ := ih hm h1 e
      refine ⟨c1.cache_trans c2, ?_⟩
      intro j hj
      rw [f2 j (fun c' hc' d => hj c' (List.mem_cons_of_mem _ hc')
        (Desc.desc_of_skeleton c1.skeleton.symm d))]
      exact f1 j (hj c (List.mem_cons_self _ _))

/-- With no-op hooks `update_` changes cached matrices only, and only at nodes below the
node it is run on. -/
theorem update__noHook : ∀ (fuel : Nat) (h : Heap) (self src : Nat) (h1 : Heap),
    update_ noHook fuel h self src = some h1 →
    CacheOnly h h1 ∧ ∀ j, ¬ Desc h self j → h1.nodes j = h.nodes j := by
  intro fuel
  induction fuel with
  | zero => intro h self src h1 e; simp [update_] at e
  | succ fuel ih =>
    intro h self src h1 e
    unfold update_ at e
    simp only [noHook] at e
    generalize hh4 : Heap.modify _ self _ = h4 at e
    have c4 : CacheOnly h h4 := by
      rw [← hh4]
      exact ((cacheOnly_modify _ _ _ (fun n => ⟨_, _, rfl⟩)).cache_trans
        (cacheOnly_modify _ _ _ (fun n => ⟨_, _, rfl⟩))).cache_trans
        (cacheOnly_modify _ _ _ (fun n => ⟨_, _, rfl⟩))
    have e4 : ∀ j, j ≠ self → h4.nodes j = h.nodes j := by
      intro j hj; rw [← hh4]; simp [hj]
    obtain ⟨c5, f5⟩ := update_loop_noHook fuel self ih _ h4 h1 e
    refine ⟨c4.cache_trans c5, ?_⟩
    intro j hj
    have hjs : j ≠ self := fun x => hj (x ▸ Desc.refl)
    rw [f5 j ?_, e4 j hjs]
    intro c hc d
    apply hj
    have hc' : c ∈ (h.nodes self).children := by
      rw [← skeleton_children c4.skeleton]; exact hc
    exact (Desc.child Desc.refl hc').desc_trans (Desc.desc_of_skeleton c4.skeleton.symm d)

theorem Desc.desc_of_children {h h2 : Heap}
    (e : ∀ j, (h2.nodes j).children = (h.nodes j).children) {a j : Nat} (d : Desc h2 a j) :
    Desc h a j := by
  induction d with
  | refl => exact Desc.refl
  | child _ hm ih => exact Desc.child ih (by rw [← e]; exact hm)

/-- `RootNode::update` with no-op hooks: it returns, resets the two matrices of the root,
changes cached matrices only at the other nodes, leaves the nodes outside the tree as they
are, and leaves every child in the tree up to date with respect to its owner. -/
theorem RootNode_update_noHook (h : Heap) (w : h.WF) :
    ∃ h1, RootNode.update noHook h rootId = some h1 ∧ h1.skeleton = h.skeleton ∧
      h1.nodes rootId = { h.nodes rootId with matrix := 1, global_matrix := 1 } ∧
      (∀ j, j ≠ rootId → ∃ (g i : Mat), h1.nodes j =
        { h.nodes j with global_matrix := g, parent_global_matrix_inv := i }) ∧
      (∀ j, ¬ InTree h j → h1.nodes j = h.nodes j) ∧
      ∀ P d, InTree h P → d ∈ (h.nodes P).children → GlobalOK h1 d P := by
  obtain ⟨h1, e1, sk, r1, _, sub⟩ := RootNode_update_spec noHook noHook_local h w
  refine ⟨h1, e1, sk, r1, ?_, ?_, sub⟩
  all_goals
    unfold RootNode.update at e1
    simp only [] at e1
    generalize hh2 : Heap.modify _ rootId _ = h2 at e1
    have e2 : ∀ j, j ≠ rootId → h2.nodes j = h.nodes j := by
      intro j hj; rw [← hh2]; simp [hj]
    have ch2 : ∀ j, (h2.nodes j).children = (h.nodes j).children := by
      intro j
      by_cases hj : j = rootId
      · subst hj; rw [← hh2]; simp
      · rw [e2 j hj]
    obtain ⟨c3, f3⟩ := update_loop_noHook h.next rootId (update__noHook h.next) _ h2 h1 e1
  · intro j hj
    obtain ⟨g, i, e⟩ := c3.2 j
    exact ⟨g, i, by rw [e, e2 j hj]⟩
  · intro j hj
    have hjr : j ≠ rootId := fun x => hj (x ▸ Desc.refl)
    rw [f3 j ?_, e2 j hjr]
    intro c hc d
    apply hj
    have d0 : Desc h c j := Desc.desc_of_children ch2 d
    exact (Desc.child Desc.refl (by rw [← ch2]; exact hc)).desc_trans d0

/-! ## C13: global positions along a chain of translations -/

theorem getTranslation_translationMatrix (s : Vec3) :
    getTranslation (translationMatrix s) = s := by
  cases s
  simp [getTranslation, translationMatrix]

/-- After `updateGlobalMatrix` on `self`, every node on the parent chain of `self` (`self`
included) that has a parent is up to date with respect to that parent. -/
theorem updateGlobalMatrix_chain : ∀ (fuel : Nat) (h : Heap) (self : Nat), h.WF →
    self < h.next → self < fuel → ∀ h1, updateGlobalMatrix fuel h self = some h1 →
    ∀ X q, Anc h X self → (h.nodes X).parent = some q → GlobalOK h1 X q := by
  intro fuel
  induction fuel with
  | zero => intro h self _ _ hf; omega
  | succ fuel ih =>
    intro h self w hs hf h1 e X q a hq
    unfold updateGlobalMatrix at e
    cases hp : (h.nodes self).parent with
    | none =>
      cases a with
      | refl => rw [hp] at hq; cases hq
      | step hp2 _ => rw [hp] at hp2; cases hp2
    | some p =>
      have hlt : p < self := w.parent_lt_of hs hp
      have hpn : p < h.next := lt_trans hlt hs
      obtain ⟨h2, e2, _, _, _, _⟩ := updateGlobalMatrix_spec fuel h p w hpn (by omega)
      simp only [hp, e2, Option.some.injEq] at e
      subst e
      have hne : p ≠ self := Nat.ne_of_lt hlt
      cases a with
      | refl =>
        rw [hp] at hq; cases hq
        simp [GlobalOK, hne]
      | step hp2 a2 =>
        rw [hp] at hp2; cases hp2
        have g := ih h p w hpn (by omega) h2 e2 X q a2 hq
        have hX : X ≤ p := Anc.le w a2 hpn
        have hqX : q < X := w.parent_lt_of (by omega) hq
        have n1 : X ≠ self := by omega
        have n2 : q ≠ self := by omega
        exact g.of_eq (by simp [n1]) (by simp [n2])

/-- The local matrix that `setPosition` computes for the position `v` premultiplied by the
inverse of an invertible affine matrix `G`, times `G`, has translation `v`. -/
theorem local_times_parent_translation (G : Mat) (n : Node) (v : Vec3)
    (hdet : Matrix.det G ≠ 0) (haff : IsAffine G) :
    getTranslation
      ((updateLocalMatrix { n with position := preMult (getInverse G) v }).matrix * G) = v := by
  simp only [updateLocalMatrix]
  refine getTranslation_mul _ _ _ v (localMatrix_row3 _ _ _) ?_
  rw [preMult_affine _ _ (getInverse_affine _ hdet haff), Matrix.vecMul_vecMul,
    getInverse_mul_self _ hdet, Matrix.vecMul_one]

/-- A tree node whose parent chain is up to date keeps its global matrix in an update with
no-op hooks. -/
theorem update_keeps_fresh (h1 h2 : Heap) (w : h1.WF)
    (hroot : (h1.nodes rootId).global_matrix = 1)
    (r2 : h2.nodes rootId = { h1.nodes rootId with matrix := 1, global_matrix := 1 })
    (c2 : ∀ j, j ≠ rootId → ∃ (g i : Mat), h2.nodes j =
      { h1.nodes j with global_matrix := g, parent_global_matrix_inv := i })
    (g2 : ∀ P d, InTree h1 P → d ∈ (h1.nodes P).children → GlobalOK h2 d P) :
    ∀ X, InTree h1 X →
      (∀ Y q, Anc h1 Y X → (h1.nodes Y).parent = some q →
        (h1.nodes Y).global_matrix = (h1.nodes Y).matrix * (h1.nodes q).global_matrix) →
      (h2.nodes X).global_matrix = (h1.nodes X).global_matrix := by
  intro X tX
  induction tX with
  | refl => intro _; rw [r2, hroot]
  | @child p c tp hc ih =>
    intro fresh
    have hpn := (Desc.anc w w.next_pos tp).2
    have hcp := w.child_parent p c hpn hc
    have hlt := w.lt_of_child hpn hc
    have hc0 : c ≠ rootId := by
      intro e; rw [e] at hlt; exact Nat.not_lt_zero _ hlt
    have ihp := ih (fun Y q a hq => fresh Y q (Anc.step hcp.1 a) hq)
    obtain ⟨g, i, e⟩ := c2 c hc0
    have em : (h2.nodes c).matrix = (h1.nodes c).matrix := by rw [e]
    rw [(g2 p c tp hc).1, em, ihp]
    exact (fresh c p Anc.refl hcp.1).symm

/-- C14: for every non-root node `A` of a reachable tree, with parent `P`,
`A.setGlobalPosition(v)` returns; when the global matrix of `P` that the call recomputed up
the parent chain is invertible and affine, a following `RootNode::update()` with no-op
hooks returns and afterwards `A.getGlobalPosition()` is `v`. -/
theorem C14_setGlobalPosition_then_update (L : OfLib) (h : Heap) (hr : Reachable L noHook h)
    (A P : Nat) (v : Vec3) (tA : InTree h A) (hP : (h.nodes A).parent = some P) :
    ∃ h1, setGlobalPosition h A v = some h1 ∧
      (Matrix.det (h1.nodes P).global_matrix ≠ 0 → IsAffine (h1.nodes P).global_matrix →
        ∃ h2, RootNode.update noHook h1 rootId = some h2 ∧ getGlobalPosition h2 A = v) := by
  have w := hr.WF noHook_local
  have hA : A < h.next := (Desc.anc w w.next_pos tA).2
  obtain ⟨hu, eu, cu, _, ru, gu⟩ := updateGlobalMatrix_spec h.next h A w hA hA
  have chain := updateGlobalMatrix_chain h.next h A w hA hA hu eu
  have hlt : P < A := w.parent_lt_of hA hP
  have hne : P ≠ A := Nat.ne_of_lt hlt
  have hA0 : rootId ≠ A := by
    intro e; rw [← e, w.root_parent] at hP; cases hP
  refine ⟨setPosition hu A (preMult (hu.nodes A).parent_global_matrix_inv v),
    by unfold setGlobalPosition; rw [eu], ?_⟩
  generalize hh1 : setPosition hu A (preMult (hu.nodes A).parent_global_matrix_inv v) = h1
  have e1 : ∀ j, j ≠ A → h1.nodes j = hu.nodes j := by
    intro j hj; rw [← hh1]; simp [setPosition, hj]
  have e1A : (h1.nodes A).matrix = (updateLocalMatrix { hu.nodes A with
      position := preMult (getInverse (hu.nodes P).global_matrix) v }).matrix := by
    rw [← hh1, ← (gu P hP).2]; simp [setPosition]
  have sk1 : h1.skeleton = h.skeleton := by
    rw [← hh1]; exact (setPosition_skeleton hu A _).trans cu.skeleton
  have w1 := WF_of_skeleton sk1 w
  have hroot : (h1.nodes rootId).global_matrix = 1 := by
    rw [e1 rootId hA0, ru]; exact reachable_root_global L noHook noHook_local h hr
  intro hdet haff
  obtain ⟨h2, e2, _, r2, c2, _, g2⟩ := RootNode_update_noHook h1 w1
  refine ⟨h2, e2, ?_⟩
  -- the parent is a tree node that owns `A`
  obtain ⟨tP, hAc⟩ : InTree h P ∧ A ∈ (h.nodes P).children := by
    rcases tA.last with e | ⟨p, tp, hc⟩
    · exact absurd e.symm hA0
    · have hp := (Desc.anc w w.next_pos tp).2
      have := (w.child_parent p A hp hc).1
      rw [this] at hP; cases hP
      exact ⟨tp, hc⟩
  have tP1 : InTree h1 P := Desc.desc_of_skeleton sk1 tP
  have hAc1 : A ∈ (h1.nodes P).children := by rw [skeleton_children sk1]; exact hAc
  have fresh : ∀ Y q, Anc h1 Y P → (h1.nodes Y).parent = some q →
      (h1.nodes Y).global_matrix = (h1.nodes Y).matrix * (h1.nodes q).global_matrix := by
    intro Y q a hq
    have a0 : Anc h Y P := Anc.anc_of_skeleton sk1.symm a
    rw [skeleton_parent sk1] at hq
    have hY : Y ≤ P := Anc.le w a0 (lt_trans hlt hA)
    have hqY : q < Y := w.parent_lt_of (by omega) hq
    rw [e1 Y (by omega), e1 q (by omega)]
    exact (chain Y q (Anc.step hP a0) hq).1
  have keep := update_keeps_fresh h1 h2 w1 hroot r2 c2 g2 P tP1 fresh
  obtain ⟨g, i, e⟩ := c2 A (Ne.symm hA0)
  have em : (h2.nodes A).matrix = (h1.nodes A).matrix := by rw [e]
  unfold getGlobalPosition
  rw [(g2 P A tP1 hAc1).1, em, keep, e1A]
  rw [e1 P hne] at hdet haff ⊢
  exact local_times_parent_translation _ _ v hdet haff

/-- C14 in the scene `root -> A -> B` with A at (10,0,0) and B at (0,5,0): after
`A.setGlobalPosition((0,0,0))` and a fresh update, the global position of A is (0,0,0) and
that of B is (0,5,0). -/
theorem C14_setGlobalPosition_then_update_witness :
    Reachable exLib noHook (runOps exLib noHook opsAB) ∧
    InTree (runOps exLib noHook opsAB) 1 ∧
    ((runOps exLib noHook opsAB).nodes 1).parent = some 0 ∧
    ∃ h1, setGlobalPosition (runOps exLib noHook opsAB) 1 ⟨0, 0, 0⟩ = some h1 ∧
      ∃ h2, RootNode.update noHook h1 rootId = some h2 ∧
        getGlobalPosition h2 1 = ⟨0, 0, 0⟩ ∧ getGlobalPosition h2 2 = ⟨0, 5, 0⟩ := by
  have hr := runOps_reachable exLib noHook opsAB
  have hp : ((runOps exLib noHook opsAB).nodes 1).parent = some 0 := by
    simp [runOps, opsAB, step, Op.target, Op.run, addChild, updateGlobalMatrix, RootNode.new,
      Heap.modify, Node.new, getInverse_one, rootId, setPosition, updateLocalMatrix]
  have t : InTree (runOps exLib noHook opsAB) 1 :=
    Desc.child Desc.refl (show 1 ∈ _ by rw [rootId, (sceneAB_shape noHook).1]; simp)
  have hB : ∃ h1, setGlobalPosition (runOps exLib noHook opsAB) 1 ⟨0, 0, 0⟩ = some h1 ∧
      (h1.nodes 0).global_matrix = 1 ∧
      ∃ h2, RootNode.update noHook h1 rootId = some h2 ∧
        getGlobalPosition h2 2 = ⟨0, 5, 0⟩ := by
    simp [runOps, opsAB, step, Op.target, Op.run, addChild, updateGlobalMatrix, RootNode.new,
      Heap.modify, Node.new, getInverse_one, rootId, setPosition, updateLocalMatrix,
      setGlobalPosition, localMatrix_translation, RootNode.update, update_, noHook,
      translationMatrix_mul, getGlobalPosition, getTranslation_translationMatrix, preMult,
      getTranslation, translationMatrix, Matrix.vecHead, Matrix.vecTail]
  obtain ⟨h1, e1, imp⟩ := C14_setGlobalPosition_then_update exLib _ hr 1 0 ⟨0, 0, 0⟩ t hp
  obtain ⟨h1b, e1b, g0, h2b, e2b, gB⟩ := hB
  have q1 : h1b = h1 := Option.some.inj (e1b.symm.trans e1)
  subst q1
  obtain ⟨h2, e2, gA⟩ := imp (by rw [g0]; simp) (by rw [g0]; simp [IsAffine])
  have q2 : h2b = h2 := Option.some.inj (e2b.symm.trans e2)
  subst q2
  exact ⟨hr, t, hp, _, e1, _, e2, gA, gB⟩

/-! ## C15: parent and root references -/

theorem skeleton_root_node {h h1 : Heap} (e : h1.skeleton = h.skeleton) (j : Nat) :
    (h1.nodes j).root_node = (h.nodes j).root_node := by
  have := congrFun (congrArg Prod.snd e) j
  simp only [Heap.skeleton, Prod.mk.injEq] at this
  exact this.2.2.2.2

/-- No operation changes the parent or the root reference of an allocated node. -/
theorem step_keeps_refs (L : OfLib) (hook : Hook) (hl : hook.Local) (h h1 : Heap) (w : h.WF)
    (op : Op) (e : step L hook h op = some h1) (j : Nat) (hj : j < h.next) :
    (h1.nodes j).parent = (h.nodes j).parent ∧
    (h1.nodes j).root_node = (h.nodes j).root_node := by
  have ofsk : ∀ {h2 : Heap}, h2.skeleton = h.skeleton →
      (h2.nodes j).parent = (h.nodes j).parent ∧
      (h2.nodes j).root_node = (h.nodes j).root_node :=
    fun sk => ⟨skeleton_parent sk j, skeleton_root_node sk j⟩
  unfold step at e
  by_cases ht : op.target < h.next
  · rw [if_pos ht] at e
    cases op with
    | setPosition self v => cases e; exact ofsk (setPosition_skeleton h self v)
    | setRotation self v => cases e; exact ofsk (setRotation_skeleton h self v)
    | setScale self v => cases e; exact ofsk (setScale_skeleton h self v)
    | move self v => cases e; exact ofsk (move_skeleton h self v)
    | rotate self angle axis => cases e; exact ofsk (rotate_skeleton L h self angle axis)
    | setGlobalPosition self v =>
      obtain ⟨h2, _, c, e2⟩ := setGlobalPosition_spec h self v w ht
      simp only [Op.run] at e
      rw [e2] at e; cases e
      exact ofsk ((setPosition_skeleton h2 self _).trans c.skeleton)
    | setGlobalRotation self v =>
      obtain ⟨h2, _, c, e2⟩ := setGlobalRotation_spec L h self v w ht
      simp only [Op.run] at e
      rw [e2] at e; cases e
      exact ofsk ((setRotation_skeleton h2 self _).trans c.skeleton)
    | setGlobalScale self v =>
      obtain ⟨h2, _, c, e2⟩ := setGlobalScale_spec L h self v w ht
      simp only [Op.run] at e
      rw [e2] at e; cases e
      exact ofsk ((setScale_skeleton h2 self _).trans c.skeleton)
    | update =>
      obtain ⟨h2, e2, sk, _⟩ := RootNode_update_spec hook hl h w
      simp only [Op.run] at e
      rw [e2] at e; cases e
      exact ofsk sk
    | removeChild self o =>
      cases e
      by_cases hs : j = self
      · subst hs; simp [Op.run, removeChild]
      · simp [Op.run, removeChild, hs]
    | clear self =>
      cases e
      by_cases hs : j = self
      · subst hs; simp [Op.run, clear]
      · simp [Op.run, clear, hs]
    | addChild self T name =>
      obtain ⟨h2, e2, c2, _, _, _⟩ := addChild_spec h self T name w ht
      simp only [Op.run, e2, Option.map_some', Option.some.injEq] at e
      subst e
      have hne : j ≠ h.next := Nat.ne_of_lt hj
      have old : (allocChild h self T name).nodes j = h.nodes j := by
        simp [allocChild, Function.update_noteq hne]
      have a := skeleton_parent c2.skeleton j
      have b := skeleton_root_node c2.skeleton j
      rw [old] at a b
      by_cases hs : j = self
      · subst hs; simp [a, b]
      · simp [hs, a, b]
  · rw [if_neg ht] at e; cases e

/-- On a reachable heap the root reference of every allocated node is the root. -/
theorem reachable_root_refs (L : OfLib) (hook : Hook) (hl : hook.Local) (h : Heap)
    (hr : Reachable L hook h) : ∀ j, j < h.next → (h.nodes j).root_node = some rootId := by
  induction hr with
  | init =>
    intro j hj
    simp only [RootNode.new] at hj
    have : j = 0 := by omega
    subst this
    simp [RootNode.new, rootId, Node.new]
  | @step h h1 op r e ih =>
    have w := r.WF hl
    intro j hj
    by_cases hjo : j < h.next
    · rw [(step_keeps_refs L hook hl h h1 w op e j hjo).2]; exact ih j hjo
    · -- only `addChild` allocates
      unfold step at e
      by_cases ht : op.target < h.next
      · rw [if_pos ht] at e
        have same : h1.skeleton = h.skeleton → False := by
          intro sk
          have := skeleton_next sk
          omega
        cases op with
        | setPosition self v => cases e; exact absurd (setPosition_skeleton h self v) same
        | setRotation self v => cases e; exact absurd (setRotation_skeleton h self v) same
        | setScale self v => cases e; exact absurd (setScale_skeleton h self v) same
        | move self v => cases e; exact absurd (move_skeleton h self v) same
        | rotate self angle axis =>
          cases e; exact absurd (rotate_skeleton L h self angle axis) same
        | setGlobalPosition self v =>
          obtain ⟨h2, _, c, e2⟩ := setGlobalPosition_spec h self v w ht
          simp only [Op.run] at e
          rw [e2] at e; cases e
          exact absurd ((setPosition_skeleton h2 self _).trans c.skeleton) same
        | setGlobalRotation self v =>
          obtain ⟨h2, _, c, e2⟩ := setGlobalRotation_spec L h self v w ht
          simp only [Op.run] at e
          rw [e2] at e; cases e
          exact absurd ((setRotation_skeleton h2 self _).trans c.skeleton) same
        | setGlobalScale self v =>
          obtain ⟨h2, _, c, e2⟩ := setGlobalScale_spec L h self v w ht
          simp only [Op.run] at e
          rw [e2] at e; cases e
          exact absurd ((setScale_skeleton h2 self _).trans c.skeleton) same
        | update =>
          obtain ⟨h2, e2, sk, _⟩ := RootNode_update_spec hook hl h w
          simp only [Op.run] at e
          rw [e2] at e; cases e
          exact absurd sk same
        | removeChild self o =>
          cases e
          simp only [removeChild, modify_next] at hj
          exact absurd hj hjo
        | clear self =>
          cases e
          simp only [clear, modify_next] at hj
          exact absurd hj hjo
        | addChild self T name =>
          obtain ⟨h2, e2, c2, _, _, _⟩ := addChild_spec h self T name w ht
          simp only [Op.run, e2, Option.map_some', Option.some.injEq] at e
          subst e
          have hn : h2.next = h.next + 1 := c2.1
          simp only [modify_next] at hj
          have hje : j = h.next := by omega
          subst hje
          have b := skeleton_root_node c2.skeleton h.next
          have hs : h.next ≠ self := Nat.ne_of_gt ht
          rw [modify_nodes_of_ne _ _ _ _ hs, b]
          simp only [allocChild, Function.update_same]
          exact ih self ht
      · rw [if_neg ht] at e; cases e

/-- C15: on every reachable heap, each child `C` in the children sequence of a tree node
`N` has `getParent() = N` and `getRootNode() =` the root; the root has no parent and is its
own root reference; and no operation changes the parent or the root reference of an
allocated node. -/
theorem C15_parent_root_refs (L : OfLib) (hook : Hook) (hl : hook.Local) (h : Heap)
    (hr : Reachable L hook h) :
    (∀ N C, InTree h N → C ∈ (h.nodes N).children →
      getParent h C = some N ∧ getRootNode h C = some rootId) ∧
    (getParent h rootId = none ∧ getRootNode h rootId = some rootId) ∧
    (∀ (op : Op) (h1 : Heap), step L hook h op = some h1 → ∀ j, j < h.next →
      getParent h1 j = getParent h j ∧ getRootNode h1 j = getRootNode h j) := by
  have w := hr.WF hl
  have rr := reachable_root_refs L hook hl h hr
  refine ⟨?_, ⟨w.root_parent, rr rootId w.next_pos⟩, ?_⟩
  · intro N C tN hC
    have hN := (Desc.anc w w.next_pos tN).2
    have := w.child_parent N C hN hC
    exact ⟨this.1, rr C this.2⟩
  · intro op h1 e j hj
    exact step_keeps_refs L hook hl h h1 w op e j hj

/-- C15 at the scene `root -> A -> B`: B, a child of the tree node A, has parent A and root
reference the root. -/
theorem C15_parent_root_refs_witness :
    Hook.Local noHook ∧ Reachable exLib noHook (runOps exLib noHook opsAB) ∧
    getParent (runOps exLib noHook opsAB) 2 = some 1 ∧
    getRootNode (runOps exLib noHook opsAB) 2 = some rootId := by
  have hr := runOps_reachable exLib noHook opsAB
  obtain ⟨c0, c1, _⟩ := sceneAB_shape noHook
  have t : InTree (runOps exLib noHook opsAB) 1 :=
    Desc.child Desc.refl (show 1 ∈ _ by rw [rootId, c0]; simp)
  exact ⟨noHook_local, hr,
    (C15_parent_root_refs exLib noHook noHook_local _ hr).1 1 2 t (by rw [c1]; simp)⟩

/-! ## C16: the local setters -/

theorem rotationMatrix_zeroRotation (q : Quat) (hz : q.zeroRotation = true) :
    rotationMatrix q = 1 := by
  obtain ⟨x, y, z, w⟩ := q
  simp only [Quat.zeroRotation, decide_eq_true_eq] at hz
  obtain ⟨rfl, rfl, rfl, rfl⟩ := hz
  ext i j
  fin_cases i <;> fin_cases j <;> simp [rotationMatrix, Matrix.vecHead, Matrix.vecTail]

theorem rotateQ_eq_mul (m : Mat) (q : Quat) : rotateQ m q = m * rotationMatrix q := by
  unfold rotateQ
  by_cases hz : q.zeroRotation = true
  · rw [if_pos hz, rotationMatrix_zeroRotation q hz, mul_one]
  · rw [if_neg hz]

theorem updateLocalMatrix_matrix (n : Node) :
    (updateLocalMatrix n).matrix = localMatrixOf n.scale n.rotation n.position := by
  simp [updateLocalMatrix, localMatrixOf, rotateQ_eq_mul]

/-- C16: after a local setter the matching getter returns the value just set, the other
two stored components are unchanged, and `getMatrix()` is the matrix built from the three
stored components in the order Scale * Rotation with the translation set to the position,
whatever the local matrix was before; in particular an earlier `move` or `rotate` leaves no
trace in it. -/
theorem C16_local_setters (L : OfLib) (h : Heap) (self : Nat) (v : Vec3) (q : Quat) :
    (getPosition (setPosition h self v) self = v ∧
      getRotation (setPosition h self v) self = getRotation h self ∧
      getScale (setPosition h self v) self = getScale h self ∧
      getMatrix (setPosition h self v) self =
        localMatrixOf (getScale h self) (getRotation h self) v) ∧
    (getRotation (setRotation h self q) self = q ∧
      getPosition (setRotation h self q) self = getPosition h self ∧
      getScale (setRotation h self q) self = getScale h self ∧
      getMatrix (setRotation h self q) self =
        localMatrixOf (getScale h self) q (getPosition h self)) ∧
    (getScale (setScale h self v) self = v ∧
      getPosition (setScale h self v) self = getPosition h self ∧
      getRotation (setScale h self v) self = getRotation h self ∧
      getMatrix (setScale h self v) self =
        localMatrixOf v (getRotation h self) (getPosition h self)) ∧
    (∀ (d : Vec3) (angle : ℚ),
      getMatrix (setPosition (move h self d) self v) self =
        getMatrix (setPosition h self v) self ∧
      getMatrix (setPosition (rotate L h self angle d) self v) self =
        getMatrix (setPosition h self v) self) := by
  refine ⟨?_, ?_, ?_, ?_⟩
  · simp [getPosition, getRotation, getScale, getMatrix, setPosition, updateLocalMatrix,
      localMatrixOf, rotateQ_eq_mul]
  · simp [getPosition, getRotation, getScale, getMatrix, setRotation, updateLocalMatrix,
      localMatrixOf, rotateQ_eq_mul]
  · simp [getPosition, getRotation, getScale, getMatrix, setScale, updateLocalMatrix,
      localMatrixOf, rotateQ_eq_mul]
  · intro d angle
    simp [getMatrix, setPosition, move, rotate, updateLocalMatrix]

/-- C16 at node A of the scene `root -> A`, moved by (5,5,5) and then positioned at
(1,2,3): the local matrix is the translation by (1,2,3). -/
theorem C16_local_setters_witness :
    getPosition (setPosition (move (runOps exLib noHook opsA) 1 ⟨5, 5, 5⟩) 1 ⟨1, 2, 3⟩) 1
      = ⟨1, 2, 3⟩ ∧
    getMatrix (setPosition (move (runOps exLib noHook opsA) 1 ⟨5, 5, 5⟩) 1 ⟨1, 2, 3⟩) 1
      = translationMatrix ⟨1, 2, 3⟩ := by
  obtain ⟨⟨p, _, _, m⟩, _⟩ := C16_local_setters exLib
    (move (runOps exLib noHook opsA) 1 ⟨5, 5, 5⟩) 1 ⟨1, 2, 3⟩ Quat.identity
  refine ⟨p, ?_⟩
  rw [m]
  have hs : getScale (move (runOps exLib noHook opsA) 1 ⟨5, 5, 5⟩) 1 = Vec3.one ∧
      getRotation (move (runOps exLib noHook opsA) 1 ⟨5, 5, 5⟩) 1 = Quat.identity := by
    simp [getScale, getRotation, move, runOps, opsA, step, Op.target, Op.run, addChild,
      updateGlobalMatrix, RootNode.new, Heap.modify, Node.new, getInverse_one, rootId]
  rw [hs.1, hs.2]
  unfold localMatrixOf
  rw [← rotateQ_eq_mul]
  exact localMatrix_translation _

/-! ## C17: type-checked child access -/

/-- C17: for an index below the number of children, `at<T>(i)` returns the `i`-th child
when the concrete class of that child is `T` or derives from `T`, and the empty handle, not
an error, when it is not; for an index not below the number of children it fails with the
out-of-range error, as `at(i)` does. -/
theorem C17_typed_at (C : Classes) (h : Heap) (self T i : Nat) :
    (i < size h self → ∃ o, (h.nodes self).children.get? i = some o ∧
      at_ h self i = Except.ok o ∧
      (((h.nodes o).kind = T ∨ C.derives (h.nodes o).kind T = true) →
        at_T C h self T i = Except.ok (some o)) ∧
      (¬ ((h.nodes o).kind = T ∨ C.derives (h.nodes o).kind T = true) →
        at_T C h self T i = Except.ok none)) ∧
    (size h self ≤ i →
      at_T C h self T i = Except.error Error.out_of_range ∧
      at_ h self i = Except.error Error.out_of_range) := by
  unfold at_T at_ size dynamic_pointer_cast
  cases e : (h.nodes self).children.get? i with
  | none =>
    have := List.get?_eq_none.1 e
    refine ⟨fun hi => ?_, fun _ => ⟨rfl, rfl⟩⟩
    omega
  | some o =>
    have hi : i < (h.nodes self).children.length := by
      by_contra hc
      rw [List.get?_eq_none.2 (not_lt.1 hc)] at e
      cases e
    refine ⟨fun _ => ⟨o, rfl, rfl, fun hk => ?_, fun hk => ?_⟩, fun hge => ?_⟩
    · simp only [if_pos hk]
    · simp only [if_neg hk]
    · omega

/-- C17 at the root of the scene with children of classes 1, 1, 2 (class 2 derives from
class 1): `at<2>(0)` is the empty handle, `at<1>(2)` is the third child, `at<1>(5)` fails. -/
theorem C17_typed_at_witness :
    at_T exClasses (runOps exLib noHook opsXYX) 0 2 0 = Except.ok none ∧
    at_T exClasses (runOps exLib noHook opsXYX) 0 1 2 = Except.ok (some 3) ∧
    at_T exClasses (runOps exLib noHook opsXYX) 0 1 5 = Except.error Error.out_of_range := by
  have kinds : ((runOps exLib noHook opsXYX).nodes 1).kind = 1 ∧
      ((runOps exLib noHook opsXYX).nodes 3).kind = 2 := by
    simp [runOps, opsXYX, step, Op.target, Op.run, addChild, updateGlobalMatrix,
      RootNode.new, Heap.modify, Node.new, getInverse_one, rootId]
  have sz : size (runOps exLib noHook opsXYX) 0 = 3 := by
    simp [size, sceneXYX_children]
  refine ⟨?_, ?_, ?_⟩
  · obtain ⟨o, ho, _, _, no⟩ := (C17_typed_at exClasses (runOps exLib noHook opsXYX) 0 2 0).1
      (by rw [sz]; decide)
    rw [sceneXYX_children] at ho
    cases ho
    exact no (by rw [kinds.1]; simp [exClasses])
  · obtain ⟨o, ho, _, yes, _⟩ := (C17_typed_at exClasses (runOps exLib noHook opsXYX) 0 1 2).1
      (by rw [sz]; decide)
    rw [sceneXYX_children] at ho
    cases ho
    exact yes (by rw [kinds.2]; simp [exClasses])
  · exact ((C17_typed_at exClasses (runOps exLib noHook opsXYX) 0 1 5).2
      (by rw [sz]; decide)).1

/-! ## C18: the matrices of a new child -/

/-- C18: on a reachable heap `addChild` on a node `P` returns a new child `C` with
identity local matrix, zero position, identity rotation and unit scale, whose global matrix
is the global matrix of `P` and whose cached inverse is the inverse of it, where the global
matrix of `P` is the one recomputed during the call: when `P` has a parent `Q` it is the
local matrix of `P` times the global matrix of `Q`. -/
theorem C18_addChild_matrices (L : OfLib) (hook : Hook) (hl : hook.Local) (h : Heap)
    (hr : Reachable L hook h) (P : Nat) (hP : P < h.next) (T : Nat) (name : String) :
    ∃ h1 C, addChild h P T name = some (h1, C) ∧
      getMatrix h1 C = 1 ∧ getPosition h1 C = Vec3.zero ∧
      getRotation h1 C = Quat.identity ∧ getScale h1 C = Vec3.one ∧
      getGlobalMatrix h1 C = getGlobalMatrix h1 P ∧
      getParentGlobalMatrixInv h1 C = getInverse (getGlobalMatrix h1 P) ∧
      (∀ Q, getParent h P = some Q →
        getGlobalMatrix h1 P = getMatrix h1 P * getGlobalMatrix h1 Q) := by
  have w := hr.WF hl
  have wa := allocChild_WF h P T name w hP
  have hn : h.next < (allocChild h P T name).next := by simp [allocChild]
  obtain ⟨h2, e2, c2, _, _, g2⟩ := updateGlobalMatrix_spec (allocChild h P T name).next
    (allocChild h P T name) h.next wa hn hn
  have chain := updateGlobalMatrix_chain (allocChild h P T name).next
    (allocChild h P T name) h.next wa hn hn h2 e2
  have hne : h.next ≠ P := Nat.ne_of_gt hP
  have hnew : (allocChild h P T name).nodes h.next =
      { Node.new T with name := name, parent := some P,
                        root_node := (h.nodes P).root_node } := by
    simp [allocChild]
  have hold : (allocChild h P T name).nodes P = h.nodes P := by
    simp [allocChild, Function.update_noteq (Ne.symm hne)]
  have g := g2 P (by rw [hnew])
  obtain ⟨gm, im, em⟩ := c2.2 h.next
  have eadd : addChild h P T name =
      some (h2.modify P fun n => { n with children := n.children ++ [h.next] }, h.next) := by
    unfold addChild
    simp only []
    change (match updateGlobalMatrix (allocChild h P T name).next
      (allocChild h P T name) h.next with
      | none => none
      | some h2 => some (h2.modify P fun n => { n with children := n.children ++ [h.next] },
          h.next)) = _
    rw [e2]
  refine ⟨_, _, eadd, ?_, ?_, ?_, ?_, ?_, ?_, ?_⟩
  · simp [getMatrix, hne, em, hnew, Node.new]
  · simp [getPosition, hne, em, hnew, Node.new]
  · simp [getRotation, hne, em, hnew, Node.new]
  · simp [getScale, hne, em, hnew, Node.new]
  · have hm : (h2.nodes h.next).matrix = 1 := by simp [em, hnew, Node.new]
    simp only [getGlobalMatrix, modify_nodes_of_ne _ _ _ _ hne, modify_nodes_self]
    rw [g.1, hm, one_mul]
  · simp only [getParentGlobalMatrixInv, getGlobalMatrix, modify_nodes_of_ne _ _ _ _ hne,
      modify_nodes_self]
    exact g.2
  · intro Q hQ
    unfold getParent at hQ
    have hQP : Q < P := w.parent_lt_of hP hQ
    have hQne : Q ≠ P := Nat.ne_of_lt hQP
    have gP := chain P Q (Anc.step (by rw [hnew]) Anc.refl) (by rw [hold]; exact hQ)
    simp only [getGlobalMatrix, getMatrix, modify_nodes_self, modify_nodes_of_ne _ _ _ _ hQne]
    exact gP.1

/-- C18 at node A of the scene `root -> A` with A at (1,0,0): the new child of A gets the
global matrix of A, the translation by (1,0,0). -/
theorem C18_addChild_matrices_witness :
    Hook.Local noHook ∧ Reachable exLib noHook (runOps exLib noHook opsAmoved) ∧
    1 < (runOps exLib noHook opsAmoved).next ∧
    ∃ h1 C, addChild (runOps exLib noHook opsAmoved) 1 1 "B" = some (h1, C) ∧
      getMatrix h1 C = 1 ∧
      getGlobalMatrix h1 C = getGlobalMatrix h1 1 ∧
      getGlobalMatrix h1 1 = translationMatrix ⟨1, 0, 0⟩ := by
  have hr := runOps_reachable exLib noHook opsAmoved
  have hn : 1 < (runOps exLib noHook opsAmoved).next := by
    simp [runOps, opsAmoved, step, Op.target, Op.run, addChild, updateGlobalMatrix,
      RootNode.new, Heap.modify, Node.new, getInverse_one, rootId, setPosition,
      updateLocalMatrix]
  have ev : ∃ h1 C, addChild (runOps exLib noHook opsAmoved) 1 1 "B" = some (h1, C) ∧
      getGlobalMatrix h1 1 = translationMatrix ⟨1, 0, 0⟩ := by
    simp [getGlobalMatrix, runOps, opsAmoved, step, Op.target, Op.run, addChild,
      updateGlobalMatrix, RootNode.new, Heap.modify, Node.new, getInverse_one, rootId,
      setPosition, updateLocalMatrix, localMatrix_translation]
  obtain ⟨h1, C, e, m, _, _, _, g, _, _⟩ :=
    C18_addChild_matrices exLib noHook noHook_local _ hr 1 hn 1 "B"
  obtain ⟨h1b, Cb, eb, gb⟩ := ev
  have q : (h1b, Cb) = (h1, C) := Option.some.inj (eb.symm.trans e)
  cases q
  exact ⟨noHook_local, hr, hn, h1, C, e, m, g, gb⟩

/-! ## C19: the global setters recompute the parent chain -/

/-- What every global setter leaves behind: after `updateGlobalMatrix` on `N` and a write
to `N` that keeps its cached inverse, every node on the parent chain of the parent `P` of
`N` that has a parent is up to date with respect to it, the cached inverse of `N` is the
inverse of the global matrix of `P`, the root is as before, and so is every node outside the
parent chain of `N`. -/
theorem global_setter_post (h : Heap) (w : h.WF) (N P : Nat) (hN : N < h.next)
    (hP : (h.nodes N).parent = some P) (f : Node → Node)
    (hf : ∀ n, (f n).parent_global_matrix_inv = n.parent_global_matrix_inv) :
    ∃ hu, updateGlobalMatrix h.next h N = some hu ∧
      (∀ A Q, Anc h A P → (h.nodes A).parent = some Q →
        ((hu.modify N f).nodes A).global_matrix =
          ((hu.modify N f).nodes A).matrix * ((hu.modify N f).nodes Q).global_matrix) ∧
      ((hu.modify N f).nodes N).parent_global_matrix_inv =
        getInverse ((hu.modify N f).nodes P).global_matrix ∧
      (hu.nodes N).parent_global_matrix_inv =
        ((hu.modify N f).nodes N).parent_global_matrix_inv ∧
      (hu.modify N f).nodes rootId = h.nodes rootId ∧
      (∀ j, ¬ Anc h j N → (hu.modify N f).nodes j = h.nodes j) := by
  obtain ⟨hu, eu, _, fu, ru, gu⟩ := updateGlobalMatrix_spec h.next h N w hN hN
  have chain := updateGlobalMatrix_chain h.next h N w hN hN hu eu
  have hlt : P < N := w.parent_lt_of hN hP
  have hne : P ≠ N := Nat.ne_of_lt hlt
  have hN0 : rootId ≠ N := by
    intro e; rw [← e, w.root_parent] at hP; cases hP
  refine ⟨hu, eu, ?_, ?_, ?_, ?_, ?_⟩
  · intro A Q a hQ
    have hA : A ≤ P := Anc.le w a (lt_trans hlt hN)
    have hQA : Q < A := w.parent_lt_of (by omega) hQ
    rw [modify_nodes_of_ne _ _ _ _ (show A ≠ N by omega),
      modify_nodes_of_ne _ _ _ _ (show Q ≠ N by omega)]
    exact (chain A Q (Anc.step hP a) hQ).1
  · rw [modify_nodes_self, modify_nodes_of_ne _ _ _ _ hne, hf]
    exact (gu P hP).2
  · rw [modify_nodes_self, hf]
  · rw [modify_nodes_of_ne _ _ _ _ hN0, ru]
  · intro j hj
    have hjN : j ≠ N := fun e => hj (e ▸ Anc.refl)
    rw [modify_nodes_of_ne _ _ _ _ hjN]
    exact fu j hj

/-- C19: on a reachable heap, for a non-root node `N` with parent `P`, each of the three
global setters returns (the recursion up the parent chain ends at the root); afterwards
every proper ancestor `A` of `N` that has a parent `Q` has
`globalMatrix = localMatrix * Q.globalMatrix`, the cached inverse of `N` is the inverse of
the global matrix of `P`, the root is unchanged and so is every node outside the parent
chain of `N`; and the local component stored is the argument converted with that inverse:
for `setGlobalPosition(v)` the position `v` premultiplied by it. -/
theorem C19_global_setters_recompute (L : OfLib) (hook : Hook) (hl : hook.Local) (h : Heap)
    (hr : Reachable L hook h) (N P : Nat) (hN : N < h.next)
    (hP : (h.nodes N).parent = some P) (v : Vec3) (q : Quat) :
    (∃ h1, setGlobalPosition h N v = some h1 ∧
      (∀ A Q, Anc h A P → (h.nodes A).parent = some Q →
        (h1.nodes A).global_matrix = (h1.nodes A).matrix * (h1.nodes Q).global_matrix) ∧
      (h1.nodes N).parent_global_matrix_inv = getInverse (h1.nodes P).global_matrix ∧
      getPosition h1 N = preMult (h1.nodes N).parent_global_matrix_inv v ∧
      h1.nodes rootId = h.nodes rootId ∧
      (∀ j, ¬ Anc h j N → h1.nodes j = h.nodes j)) ∧
    (∃ h1, setGlobalRotation L h N q = some h1 ∧
      (∀ A Q, Anc h A P → (h.nodes A).parent = some Q →
        (h1.nodes A).global_matrix = (h1.nodes A).matrix * (h1.nodes Q).global_matrix) ∧
      (h1.nodes N).parent_global_matrix_inv = getInverse (h1.nodes P).global_matrix ∧
      getRotation h1 N = L.quatMul (L.getRotate (h1.nodes N).parent_global_matrix_inv) q ∧
      h1.nodes rootId = h.nodes rootId ∧
      (∀ j, ¬ Anc h j N → h1.nodes j = h.nodes j)) ∧
    (∃ h1, setGlobalScale L h N v = some h1 ∧
      (∀ A Q, Anc h A P → (h.nodes A).parent = some Q →
        (h1.nodes A).global_matrix = (h1.nodes A).matrix * (h1.nodes Q).global_matrix) ∧
      (h1.nodes N).parent_global_matrix_inv = getInverse (h1.nodes P).global_matrix ∧
      getScale h1 N = Vec3.mul (L.getScale (h1.nodes N).parent_global_matrix_inv) v ∧
      h1.nodes rootId = h.nodes rootId ∧
      (∀ j, ¬ Anc h j N → h1.nodes j = h.nodes j)) := by
  have w := hr.WF hl
  refine ⟨?_, ?_, ?_⟩
  · obtain ⟨hu, eu, a, b, c, d, e⟩ := global_setter_post h w N P hN hP
      (fun n => updateLocalMatrix
        { n with position := preMult (n.parent_global_matrix_inv) v }) (fun _ => rfl)
    have hs : setPosition hu N (preMult (hu.nodes N).parent_global_matrix_inv v) =
        hu.modify N (fun n => updateLocalMatrix
          { n with position := preMult (n.parent_global_matrix_inv) v }) := by
      simp [setPosition, Heap.modify]
    refine ⟨_, by unfold setGlobalPosition; rw [eu]; exact congrArg some hs, a, b, ?_, d, e⟩
    simp [getPosition, updateLocalMatrix]
  · obtain ⟨hu, eu, a, b, c, d, e⟩ := global_setter_post h w N P hN hP
      (fun n => updateLocalMatrix
        { n with rotation := L.quatMul (L.getRotate n.parent_global_matrix_inv) q })
      (fun _ => rfl)
    have hs : setRotation hu N
        (L.quatMul (L.getRotate (hu.nodes N).parent_global_matrix_inv) q) =
        hu.modify N (fun n => updateLocalMatrix
          { n with rotation := L.quatMul (L.getRotate n.parent_global_matrix_inv) q }) := by
      simp [setRotation, Heap.modify]
    refine ⟨_, by unfold setGlobalRotation; rw [eu]; exact congrArg some hs, a, b, ?_, d, e⟩
    simp [getRotation, updateLocalMatrix]
  · obtain ⟨hu, eu, a, b, c, d, e⟩ := global_setter_post h w N P hN hP
      (fun n => updateLocalMatrix
        { n with scale := Vec3.mul (L.getScale n.parent_global_matrix_inv) v })
      (fun _ => rfl)
    have hs : setScale hu N
        (Vec3.mul (L.getScale (hu.nodes N).parent_global_matrix_inv) v) =
        hu.modify N (fun n => updateLocalMatrix
          { n with scale := Vec3.mul (L.getScale n.parent_global_matrix_inv) v }) := by
      simp [setScale, Heap.modify]
    refine ⟨_, by unfold setGlobalScale; rw [eu]; exact congrArg some hs, a, b, ?_, d, e⟩
    simp [getScale, updateLocalMatrix]

/-- C19 at node B of the scene `root -> A -> B`: after `B.setGlobalPosition((3,4,5))` the
ancestor A is up to date with respect to the root, and the stored position of B is (3,4,5)
premultiplied by the cached inverse. -/
theorem C19_global_setters_recompute_witness :
    Hook.Local noHook ∧ Reachable exLib noHook (runOps exLib noHook opsAB) ∧
    2 < (runOps exLib noHook opsAB).next ∧
    ((runOps exLib noHook opsAB).nodes 2).parent = some 1 ∧
    ∃ h1, setGlobalPosition (runOps exLib noHook opsAB) 2 ⟨3, 4, 5⟩ = some h1 ∧
      (h1.nodes 1).global_matrix = (h1.nodes 1).matrix * (h1.nodes 0).global_matrix ∧
      (h1.nodes 2).parent_global_matrix_inv = getInverse (h1.nodes 1).global_matrix ∧
      getPosition h1 2 = preMult (h1.nodes 2).parent_global_matrix_inv ⟨3, 4, 5⟩ := by
  have hr := runOps_reachable exLib noHook opsAB
  have hn : 2 < (runOps exLib noHook opsAB).next := by
    simp [runOps, opsAB, step, Op.target, Op.run, addChild, updateGlobalMatrix, RootNode.new,
      Heap.modify, Node.new, getInverse_one, rootId, setPosition, updateLocalMatrix]
  have hp1 : ((runOps exLib noHook opsAB).nodes 1).parent = some 0 := by
    simp [runOps, opsAB, step, Op.target, Op.run, addChild, updateGlobalMatrix, RootNode.new,
      Heap.modify, Node.new, getInverse_one, rootId, setPosition, updateLocalMatrix]
  have hp2 := (sceneAB_shape noHook).2.2
  obtain ⟨⟨h1, e, a, b, c, _⟩, _⟩ := C19_global_setters_recompute exLib noHook noHook_local _
    hr 2 1 hn hp2 ⟨3, 4, 5⟩ Quat.identity
  exact ⟨noHook_local, hr, hn, hp2, h1, e, a 1 0 Anc.refl hp1, b, c⟩

/-! ## C20: the update traversal is idempotent -/

theorem Heap.ext_nodes {h1 h2 : Heap} (hn : h1.next = h2.next)
    (hj : ∀ j, h1.nodes j = h2.nodes j) : h1 = h2 := by
  cases h1; cases h2
  simp only [Heap.mk.injEq]
  exact ⟨funext hj, hn⟩

/-- C20: with no-op hooks, on a reachable heap, `RootNode::update()` returns a heap on
which a second `RootNode::update()` returns the same heap; and the update changes no name,
stored position, rotation or scale, parent or root reference or children sequence of any
node, and no local matrix of a node other than the root. -/
theorem C20_update_idempotent (L : OfLib) (h : Heap) (hr : Reachable L noHook h) :
    ∃ h1, RootNode.update noHook h rootId = some h1 ∧
      RootNode.update noHook h1 rootId = some h1 ∧
      (∀ j, getName h1 j = getName h j ∧ getPosition h1 j = getPosition h j ∧
        getRotation h1 j = getRotation h j ∧ getScale h1 j = getScale h j ∧
        getParent h1 j = getParent h j ∧ getRootNode h1 j = getRootNode h j ∧
        (h1.nodes j).children = (h.nodes j).children) ∧
      (∀ j, j ≠ rootId → getMatrix h1 j = getMatrix h j) := by
  have w := hr.WF noHook_local
  obtain ⟨h1, e1, sk1, r1, c1, _, g1⟩ := RootNode_update_noHook h w
  have w1 := WF_of_skeleton sk1 w
  obtain ⟨h2, e2, sk2, r2, c2, f2, g2⟩ := RootNode_update_noHook h1 w1
  have tree : ∀ j, InTree h1 j → h2.nodes j = h1.nodes j := by
    intro j tj
    induction tj with
    | refl => rw [r2, r1]
    | @child p c tp hc ih =>
      have hpn := (Desc.anc w1 w1.next_pos tp).2
      have hlt := w1.lt_of_child hpn hc
      have hc0 : c ≠ rootId := by
        intro e; rw [e] at hlt; exact Nat.not_lt_zero _ hlt
      obtain ⟨g, i, e⟩ := c2 c hc0
      have em : (h2.nodes c).matrix = (h1.nodes c).matrix := by rw [e]
      have old := g1 p c (Desc.desc_of_skeleton sk1.symm tp)
        (by rw [← skeleton_children sk1]; exact hc)
      have new := g2 p c tp hc
      have eg : g = (h1.nodes c).global_matrix := by
        have : (h2.nodes c).global_matrix = g := by rw [e]
        rw [← this, new.1, em, ih, ← old.1]
      have ei : i = (h1.nodes c).parent_global_matrix_inv := by
        have : (h2.nodes c).parent_global_matrix_inv = i := by rw [e]
        rw [← this, new.2, ih, ← old.2]
      rw [e, eg, ei]
  have same : h2 = h1 := by
    apply Heap.ext_nodes (skeleton_next sk2)
    intro j
    by_cases tj : InTree h1 j
    · exact tree j tj
    · exact f2 j tj
  refine ⟨h1, e1, by rw [e2, same], ?_, ?_⟩
  · intro j
    by_cases hj : j = rootId
    · subst hj
      simp [getName, getPosition, getRotation, getScale, getParent, getRootNode, r1]
    · obtain ⟨g, i, e⟩ := c1 j hj
      simp [getName, getPosition, getRotation, getScale, getParent, getRootNode, e]
  · intro j hj
    obtain ⟨g, i, e⟩ := c1 j hj
    simp [getMatrix, e]

/-- C20 at the scene `root -> A -> B`: a second update leaves the result of the first as it
is. -/
theorem C20_update_idempotent_witness :
    Reachable exLib noHook (runOps exLib noHook opsAB) ∧
    ∃ h1, RootNode.update noHook (runOps exLib noHook opsAB) rootId = some h1 ∧
      RootNode.update noHook h1 rootId = some h1 ∧
      getPosition h1 2 = ⟨0, 5, 0⟩ := by
  have hr := runOps_reachable exLib noHook opsAB
  have hp : getPosition (runOps exLib noHook opsAB) 2 = ⟨0, 5, 0⟩ := by
    simp [getPosition, runOps, opsAB, step, Op.target, Op.run, addChild, updateGlobalMatrix,
      RootNode.new, Heap.modify, Node.new, getInverse_one, rootId, setPosition,
      updateLocalMatrix]
  obtain ⟨h1, e1, e2, keep, _⟩ := C20_update_idempotent exLib _ hr
  exact ⟨hr, h1, e1, e2, by rw [(keep 2).2.1, hp]⟩

/-! ## C2: `setGlobalPosition` followed by `getGlobalPosition` -/

/-- A node whose parent chain is up to date keeps its global matrix when
`updateGlobalMatrix` runs on any node. -/
theorem updateGlobalMatrix_keeps_fresh : ∀ (fuel : Nat) (h : Heap) (self : Nat), h.WF →
    self < h.next → self < fuel → ∀ h1, updateGlobalMatrix fuel h self = some h1 →
    ∀ X, (∀ Y q, Anc h Y X → (h.nodes Y).parent = some q →
        (h.nodes Y).global_matrix = (h.nodes Y).matrix * (h.nodes q).global_matrix) →
      (h1.nodes X).global_matrix = (h.nodes X).global_matrix := by
  intro fuel
  induction fuel with
  | zero => intro h self _ _ hf; omega
  | succ fuel ih =>
    intro h self w hs hf h1 e X fresh
    unfold updateGlobalMatrix at e
    cases hp : (h.nodes self).parent with
    | none =>
      simp only [hp, Option.some.injEq] at e
      subst e; rfl
    | some p =>
      have hlt : p < self := w.parent_lt_of hs hp
      have hpn : p < h.next := lt_trans hlt hs
      obtain ⟨h2, e2, c2, _, _, _⟩ := updateGlobalMatrix_spec fuel h p w hpn (by omega)
      simp only [hp, e2, Option.some.injEq] at e
      subst e
      have hne : p ≠ self := Nat.ne_of_lt hlt
      by_cases hX : X = self
      · subst hX
        have kp := ih h p w hpn (by omega) h2 e2 p
          (fun Y q a hq => fresh Y q (Anc.step hp a) hq)
        simp only [modify_nodes_self, modify_nodes_of_ne _ _ _ _ hne]
        rw [c2.matrix, kp]
        exact (fresh X p Anc.refl hp).symm
      · simp only [modify_nodes_of_ne _ _ _ _ hX]
        exact ih h p w hpn (by omega) h2 e2 X fresh

/-- On a well-formed heap whose root has the identity as global matrix, for a non-root node
`A` of the tree with parent `P`: `setGlobalPosition(v)` returns, and when the global matrix
of `P` it leaves is invertible and affine, a following update with no-op hooks returns and
leaves `A` with global position `v`. -/
theorem setGlobalPosition_then_update_core (h : Heap) (w : h.WF)
    (hroot0 : (h.nodes rootId).global_matrix = 1)
    (A P : Nat) (v : Vec3) (tA : InTree h A) (hP : (h.nodes A).parent = some P) :
    ∃ h1, setGlobalPosition h A v = some h1 ∧
      (Matrix.det (h1.nodes P).global_matrix ≠ 0 → IsAffine (h1.nodes P).global_matrix →
        ∃ h2, RootNode.update noHook h1 rootId = some h2 ∧ getGlobalPosition h2 A = v) := by
  have hA : A < h.next := (Desc.anc w w.next_pos tA).2
  obtain ⟨hu, eu, cu, _, ru, gu⟩ := updateGlobalMatrix_spec h.next h A w hA hA
  have chain := updateGlobalMatrix_chain h.next h A w hA hA hu eu
  have hlt : P < A := w.parent_lt_of hA hP
  have hne : P ≠ A := Nat.ne_of_lt hlt
  have hA0 : rootId ≠ A := by
    intro e; rw [← e, w.root_parent] at hP; cases hP
  refine ⟨setPosition hu A (preMult (hu.nodes A).parent_global_matrix_inv v),
    by unfold setGlobalPosition; rw [eu], ?_⟩
  generalize hh1 : setPosition hu A (preMult (hu.nodes A).parent_global_matrix_inv v) = h1
  have e1 : ∀ j, j ≠ A → h1.nodes j = hu.nodes j := by
    intro j hj; rw [← hh1]; simp [setPosition, hj]
  have e1A : (h1.nodes A).matrix = (updateLocalMatrix { hu.nodes A with
      position := preMult (getInverse (hu.nodes P).global_matrix) v }).matrix := by
    rw [← hh1, ← (gu P hP).2]; simp [setPosition]
  have sk1 : h1.skeleton = h.skeleton := by
    rw [← hh1]; exact (setPosition_skeleton hu A _).trans cu.skeleton
  have w1 := WF_of_skeleton sk1 w
  have hroot : (h1.nodes rootId).global_matrix = 1 := by
    rw [e1 rootId hA0, ru]; exact hroot0
  intro hdet haff
  obtain ⟨h2, e2, _, r2, c2, _, g2⟩ := RootNode_update_noHook h1 w1
  refine ⟨h2, e2, ?_⟩
  obtain ⟨tP, hAc⟩ : InTree h P ∧ A ∈ (h.nodes P).children := by
    rcases tA.last with e | ⟨p, tp, hc⟩
    · exact absurd e.symm hA0
    · have hp := (Desc.anc w w.next_pos tp).2
      have := (w.child_parent p A hp hc).1
      rw [this] at hP; cases hP
      exact ⟨tp, hc⟩
  have tP1 : InTree h1 P := Desc.desc_of_skeleton sk1 tP
  have hAc1 : A ∈ (h1.nodes P).children := by rw [skeleton_children sk1]; exact hAc
  have fresh : ∀ Y q, Anc h1 Y P → (h1.nodes Y).parent = some q →
      (h1.nodes Y).global_matrix = (h1.nodes Y).matrix * (h1.nodes q).global_matrix := by
    intro Y q a hq
    have a0 : Anc h Y P := Anc.anc_of_skeleton sk1.symm a
    rw [skeleton_parent sk1] at hq
    have hY : Y ≤ P := Anc.le w a0 (lt_trans hlt hA)
    have hqY : q < Y := w.parent_lt_of (by omega) hq
    rw [e1 Y (by omega), e1 q (by omega)]
    exact (chain Y q (Anc.step hP a0) hq).1
  have keep := update_keeps_fresh h1 h2 w1 hroot r2 c2 g2 P tP1 fresh
  obtain ⟨g, i, e⟩ := c2 A (Ne.symm hA0)
  have em : (h2.nodes A).matrix = (h1.nodes A).matrix := by rw [e]
  unfold getGlobalPosition
  rw [(g2 P A tP1 hAc1).1, em, keep, e1A]
  rw [e1 P hne] at hdet haff ⊢
  exact local_times_parent_translation _ _ v hdet haff

/-- C2, as the code has it: for every non-root node `N` with parent `P` of a reachable
heap, `setGlobalPosition(v)` returns; `getGlobalPosition()` right after it, with no
recomputation in between, returns the translation of the global matrix cached by the call,
the local matrix from before the call times the parent's global matrix; and when the
parent's global matrix left by the call is invertible and affine, the new local matrix times
the parent's global matrix has translation `v`, which is what `getGlobalPosition()` returns
once the global matrix of `N` is recomputed.  Further: the cached inverse of `N` is the
inverse of the global matrix of `P`, and the local position stored is `v` premultiplied by
it; and, the global matrix of `P` being invertible and affine, `getGlobalPosition()` is `v`
after a following `updateGlobalMatrix` on `N`, and, when `N` is a node of the tree, after a
following update traversal with no-op hooks. -/
theorem C2_setGlobalPosition_then_get (L : OfLib) (hook : Hook) (hl : hook.Local) (h : Heap)
    (hr : Reachable L hook h) (N P : Nat) (v : Vec3) (hN : N < h.next)
    (hP : (h.nodes N).parent = some P) :
    ∃ h2, setGlobalPosition h N v = some h2 ∧
      getGlobalPosition h2 N =
        getTranslation ((h.nodes N).matrix * (h2.nodes P).global_matrix) ∧
      (Matrix.det (h2.nodes P).global_matrix ≠ 0 → IsAffine (h2.nodes P).global_matrix →
        getTranslation ((h2.nodes N).matrix * (h2.nodes P).global_matrix) = v) ∧
      (h2.nodes N).parent_global_matrix_inv = getInverse (h2.nodes P).global_matrix ∧
      getPosition h2 N = preMult (h2.nodes N).parent_global_matrix_inv v ∧
      (Matrix.det (h2.nodes P).global_matrix ≠ 0 → IsAffine (h2.nodes P).global_matrix →
        ∃ h3, updateGlobalMatrix h2.next h2 N = some h3 ∧ getGlobalPosition h3 N = v) ∧
      (InTree h N → Matrix.det (h2.nodes P).global_matrix ≠ 0 →
        IsAffine (h2.nodes P).global_matrix →
        ∃ h3, RootNode.update noHook h2 rootId = some h3 ∧ getGlobalPosition h3 N = v) := by
  have w := hr.WF hl
  obtain ⟨h1, e1, c1, _, _, g1⟩ := updateGlobalMatrix_spec h.next h N w hN hN
  have chain := updateGlobalMatrix_chain h.next h N w hN hN h1 e1
  have g := g1 P hP
  have hlt : P < N := w.parent_lt_of hN hP
  have hne : P ≠ N := Nat.ne_of_lt hlt
  have eset : setGlobalPosition h N v =
      some (setPosition h1 N (preMult (h1.nodes N).parent_global_matrix_inv v)) := by
    unfold setGlobalPosition; rw [e1]
  have third : Matrix.det ((setPosition h1 N
        (preMult (h1.nodes N).parent_global_matrix_inv v)).nodes P).global_matrix ≠ 0 →
      IsAffine ((setPosition h1 N
        (preMult (h1.nodes N).parent_global_matrix_inv v)).nodes P).global_matrix →
      getTranslation (((setPosition h1 N
        (preMult (h1.nodes N).parent_global_matrix_inv v)).nodes N).matrix *
        ((setPosition h1 N
          (preMult (h1.nodes N).parent_global_matrix_inv v)).nodes P).global_matrix) = v := by
    simp only [setPosition, modify_nodes_self, updateLocalMatrix,
      modify_nodes_of_ne _ _ _ _ hne]
    intro hdet haff
    refine getTranslation_mul _ _ _ v (localMatrix_row3 _ _ _) ?_
    rw [g.2, preMult_affine _ _ (getInverse_affine _ hdet haff), Matrix.vecMul_vecMul,
      getInverse_mul_self _ hdet, Matrix.vecMul_one]
  refine ⟨_, eset, ?_, third, ?_, ?_, ?_, ?_⟩
  · simp only [getGlobalPosition, setPosition, modify_nodes_self, updateLocalMatrix,
      modify_nodes_of_ne _ _ _ _ hne]
    rw [g.1, c1.matrix]
  · simp only [setPosition, modify_nodes_self, updateLocalMatrix,
      modify_nodes_of_ne _ _ _ _ hne]
    exact g.2
  · simp [getPosition, setPosition, updateLocalMatrix]
  · intro hdet haff
    have tr := third hdet haff
    generalize hh2 : setPosition h1 N (preMult (h1.nodes N).parent_global_matrix_inv v) = h2
      at tr hdet haff ⊢
    have e2 : ∀ j, j ≠ N → h2.nodes j = h1.nodes j := by
      intro j hj; rw [← hh2]; simp [setPosition, hj]
    have sk2 : h2.skeleton = h.skeleton := by
      rw [← hh2]; exact (setPosition_skeleton h1 N _).trans c1.skeleton
    have w2 := WF_of_skeleton sk2 w
    have hN2 : N < h2.next := by rw [skeleton_next sk2]; exact hN
    have hP2 : (h2.nodes N).parent = some P := by rw [skeleton_parent sk2]; exact hP
    obtain ⟨h3, e3, c3, _, _, g3⟩ := updateGlobalMatrix_spec h2.next h2 N w2 hN2 hN2
    have fresh : ∀ Y q, Anc h2 Y P → (h2.nodes Y).parent = some q →
        (h2.nodes Y).global_matrix = (h2.nodes Y).matrix * (h2.nodes q).global_matrix := by
      intro Y q a hq
      have a0 : Anc h Y P := Anc.anc_of_skeleton sk2.symm a
      rw [skeleton_parent sk2] at hq
      have hY : Y ≤ P := Anc.le w a0 (lt_trans hlt hN)
      have hqY : q < Y := w.parent_lt_of (by omega) hq
      rw [e2 Y (by omega), e2 q (by omega)]
      exact (chain Y q (Anc.step hP a0) hq).1
    have keep := updateGlobalMatrix_keeps_fresh h2.next h2 N w2 hN2 hN2 h3 e3 P fresh
    refine ⟨h3, e3, ?_⟩
    unfold getGlobalPosition
    rw [(g3 P hP2).1, c3.matrix, keep]
    exact tr
  · intro tN hdet haff
    obtain ⟨h2, e2, imp⟩ := setGlobalPosition_then_update_core h w
      (reachable_root_global L hook hl h hr) N P v tN hP
    have q : h2 = setPosition h1 N (preMult (h1.nodes N).parent_global_matrix_inv v) :=
      Option.some.inj (e2.symm.trans eset)
    subst q
    exact imp hdet haff

/-- C2 refuted as stated: in the scene `root -> A`, where the root's global matrix is the
identity, `A.setGlobalPosition((1,0,0))` followed by `A.getGlobalPosition()` returns
`(0,0,0)`. -/
theorem C2_counterexample :
    ∃ h2, setGlobalPosition (runOps exLib noHook opsA) 1 ⟨1, 0, 0⟩ = some h2 ∧
      (h2.nodes 0).global_matrix = 1 ∧
      getGlobalPosition h2 1 = ⟨0, 0, 0⟩ ∧ getGlobalPosition h2 1 ≠ ⟨1, 0, 0⟩ := by
  simp [runOps, opsA, step, Op.target, Op.run, addChild, updateGlobalMatrix, RootNode.new,
    Heap.modify, Node.new, getInverse_one, rootId, setGlobalPosition, setPosition,
    getGlobalPosition, getTranslation, updateLocalMatrix]

/-- C2 (as the code has it) at node B of the scene `root -> A -> B`: the global matrix of A
left by the call is the translation by (10,0,0), invertible and affine; the new local
matrix of B times it has translation (3,4,5); the stored position of B is (3,4,5)
premultiplied by the cached inverse; and after a following `updateGlobalMatrix` on B, or a
following update traversal, `B.getGlobalPosition()` is (3,4,5). -/
theorem C2_setGlobalPosition_then_get_witness :
    Hook.Local noHook ∧ Reachable exLib noHook (runOps exLib noHook opsAB) ∧
    2 < (runOps exLib noHook opsAB).next ∧
    ((runOps exLib noHook opsAB).nodes 2).parent = some 1 ∧
    ∃ h2, setGlobalPosition (runOps exLib noHook opsAB) 2 ⟨3, 4, 5⟩ = some h2 ∧
      (h2.nodes 1).global_matrix = translationMatrix ⟨10, 0, 0⟩ ∧
      getTranslation ((h2.nodes 2).matrix * (h2.nodes 1).global_matrix) = ⟨3, 4, 5⟩ ∧
      getPosition h2 2 = preMult (h2.nodes 2).parent_global_matrix_inv ⟨3, 4, 5⟩ ∧
      (∃ h3, updateGlobalMatrix h2.next h2 2 = some h3 ∧
        getGlobalPosition h3 2 = ⟨3, 4, 5⟩) ∧
      (∃ h3, RootNode.update noHook h2 rootId = some h3 ∧
        getGlobalPosition h3 2 = ⟨3, 4, 5⟩) := by
  have hn : 2 < (runOps exLib noHook opsAB).next := by
    simp [runOps, opsAB, step, Op.target, Op.run, addChild, updateGlobalMatrix, RootNode.new,
      Heap.modify, Node.new, getInverse_one, rootId, setPosition, updateLocalMatrix]
  have hp : ((runOps exLib noHook opsAB).nodes 2).parent = some 1 := by
    simp [runOps, opsAB, step, Op.target, Op.run, addChild, updateGlobalMatrix, RootNode.new,
      Heap.modify, Node.new, getInverse_one, rootId, setPosition, updateLocalMatrix]
  have hg : ∃ h2, setGlobalPosition (runOps exLib noHook opsAB) 2 ⟨3, 4, 5⟩ = some h2 ∧
      (h2.nodes 1).global_matrix = translationMatrix ⟨10, 0, 0⟩ := by
    simp [runOps, opsAB, step, Op.target, Op.run, addChild, updateGlobalMatrix, RootNode.new,
      Heap.modify, Node.new, getInverse_one, rootId, setPosition, updateLocalMatrix,
      setGlobalPosition, localMatrix_translation]
  obtain ⟨c0, c1, _⟩ := sceneAB_shape noHook
  have t : InTree (runOps exLib noHook opsAB) 2 :=
    Desc.child (Desc.child Desc.refl (show 1 ∈ _ by rw [rootId, c0]; simp))
      (show 2 ∈ _ by rw [c1]; simp)
  obtain ⟨h2, e2, _, imp, _, pos, ugm, upd⟩ := C2_setGlobalPosition_then_get exLib noHook
    noHook_local _ (runOps_reachable exLib noHook opsAB) 2 1 ⟨3, 4, 5⟩ hn hp
  obtain ⟨h3, e3, g3⟩ := hg
  have q : h3 = h2 := Option.some.inj (e3.symm.trans e2)
  subst q
  have hdet : Matrix.det (h3.nodes 1).global_matrix ≠ 0 := by
    rw [g3, translationMatrix_det]; exact one_ne_zero
  have haff : IsAffine (h3.nodes 1).global_matrix := by
    rw [g3]; simp [IsAffine, translationMatrix]
  exact ⟨noHook_local, runOps_reachable _ _ _, hn, hp, h3, e2, g3, imp hdet haff, pos,
    ugm hdet haff, upd t hdet haff⟩

end ofxNodeGraph
